import Mathlib

/-!
# Verification of the myia ANF IR core (`myia/anf_ir.py`)

Shallow embedding of the graph-based ANF intermediate representation:
nodes carry a forward edge list (`inputs`) and a reverse edge set
(`uses`), kept synchronized by the edge-aware input sequence
(`Inputs.__setitem__`, `__delitem__`, `insert`, `clear`, the `inputs`
property setter) and by whole-node substitution (`ANFNode.replace`).

Modelling choices (all traced from the Python source):

* Nodes are identified by natural-number ids; a program state maps each
  id to its record (`inputs`, `uses`, `value`, `graph`).  `uses` is a
  `Finset (NodeId × Int)` mirroring Python's `set` of
  `(node, index)` tuples; indices are `Int` because the buggy paths of
  the source can record negative or oversized indices.
* Python exceptions are modelled by returning the state at raise time
  together with an error tag: mutations performed before the raise
  persist, later statements do not run (`State × Option Err`).
* `set.remove` raises `KeyError` when the element is absent, so
  use-set removal is fallible; `set.add` is total and idempotent.
* Python sequence indexing (negative indices, clamping in
  `list.insert`, slices `l[i:]`) is reproduced by the `py*` helpers.
* The sentinels `PARAMETER`/`RETURN` (class `Named` from
  `myia.utils`, not part of the edge logic) are modelled as opaque
  tags of a `Value` type; constants carry an opaque literal payload.
* `ANFNode.replace` iterates `self.uses` while `Inputs.__setitem__`
  removes the processed pair from that very set.  CPython's set
  iterator raises `RuntimeError` at the first call after the
  set's size changed, so: an empty use-set loops zero times and
  succeeds; a nonempty one has exactly one (arbitrarily chosen) pair
  processed before the `RuntimeError`.  The arbitrary choice is
  modelled by the canonical least pair (`pickOfUses`); order-sensitive
  statements are additionally proved for every choice via
  `replFinish`.
-/

namespace Myia

/-- Node identifier (Python object identity). -/
abbrev NodeId := Nat

/-- Node payloads: the reserved `PARAMETER` / `RETURN` sentinel tags
(class `Named` in `myia.utils`), `None` (used by `Apply`), or an
opaque literal (constants). -/
inductive Value where
  | parameterTag : Value
  | returnTag : Value
  | noneVal : Value
  | lit : Nat → Value
deriving DecidableEq

/-- The mutable fields of an `ANFNode`: forward edges `inputs`
(the `Inputs.data` list), reverse edges `uses`
(set of `(user, index)` pairs), the `value` payload and the owning
`graph` reference (`None` for constants). -/
structure NodeData where
  inputs : List NodeId
  uses : Finset (NodeId × Int)
  value : Value
  graph : Option Nat
deriving DecidableEq

/-- A node that was never constructed: no edges, no payload. -/
def defaultNode : NodeData := ⟨[], ∅, .noneVal, none⟩

/-- Program state: every node id has a record (unconstructed ids map
to `defaultNode`). -/
abbrev State := NodeId → NodeData

/-- The state before any node is constructed. -/
def emptyState : State := fun _ => defaultNode

/-- Update the record of one node. -/
def upd (s : State) (n : NodeId) (d : NodeData) : State :=
  fun k => if k = n then d else s k

/-- Error classes raised by the source: `IndexError` (out-of-range
sequence access), `KeyError` (`set.remove` of an absent element),
`ValueError` (`raise ValueError("slice ... not supported")`) and
`RuntimeError` (set changed size during iteration). -/
inductive Err where
  | indexError : Err
  | keyError : Err
  | valueError : Err
  | runtimeError : Err
deriving DecidableEq

/-- `m.uses.remove(p)` — Python `set.remove`: raises `KeyError` when
the pair is absent. -/
def usesErase (s : State) (m : NodeId) (p : NodeId × Int) : State × Option Err :=
  if p ∈ (s m).uses then
    (upd s m { s m with uses := (s m).uses.erase p }, none)
  else (s, some .keyError)

/-- `m.uses.add(p)` — Python `set.add` (total, idempotent). -/
def usesInsert (s : State) (m : NodeId) (p : NodeId × Int) : State :=
  upd s m { s m with uses := insert p (s m).uses }

/-- Replace the `inputs` list of a node (raw `self.data` update). -/
def setInputsList (s : State) (n : NodeId) (l : List NodeId) : State :=
  upd s n { s n with inputs := l }

/-! ## Python sequence-index semantics -/

/-- Resolve a (possibly negative) Python index against a list of
length `n`: `l[i]` reads `l[i]` for `0 ≤ i < n`, `l[n+i]` for
`-n ≤ i < 0`, and raises `IndexError` otherwise. -/
def pyIndex (n : Nat) (i : Int) : Option Nat :=
  if 0 ≤ i then (if i < (n : Int) then some i.toNat else none)
  else (if 0 ≤ i + (n : Int) then some (i + (n : Int)).toNat else none)

/-- Python `l[i]` for an int index. -/
def pyGet (l : List NodeId) (i : Int) : Option NodeId :=
  (pyIndex l.length i).bind fun k => l[k]?

/-- Python `l[i] = v` at an index already known to resolve. -/
def pySet (l : List NodeId) (i : Int) (v : NodeId) : List NodeId :=
  match pyIndex l.length i with
  | some k => l.set k v
  | none => l

/-- Python `del l[i]` at an index already known to resolve. -/
def pyEraseAt (l : List NodeId) (i : Int) : List NodeId :=
  match pyIndex l.length i with
  | some k => l.eraseIdx k
  | none => l

/-- Python slice `l[i:]` (negative start counts from the end and is
clamped at 0). -/
def pyDropFrom (l : List NodeId) (i : Int) : List NodeId :=
  if 0 ≤ i then l.drop i.toNat else l.drop (i + (l.length : Int)).toNat

/-- Python `l.insert(i, v)`: the position is clamped into `[0, n]`. -/
def pyInsertAt (l : List NodeId) (i : Int) (v : NodeId) : List NodeId :=
  let k := if 0 ≤ i then min i.toNat l.length else (i + (l.length : Int)).toNat
  l.take k ++ v :: l.drop k

/-- The normalization `if index < 0: index += len(self)` performed by
`__setitem__`, `__delitem__` and `insert` (once, before any use of the
index). -/
def pyNorm (n : Nat) (i : Int) : Int :=
  if i < 0 then i + (n : Int) else i

/-! ## The edge-aware input sequence (`class Inputs`) -/

/-- `Inputs.__getitem__` with an int index: `return self.data[index]`
(no normalization of its own; plain Python list indexing).  It
performs no mutation. -/
def getItem (s : State) (owner : NodeId) (index : Int) : Except Err NodeId :=
  match pyGet (s owner).inputs index with
  | some v => .ok v
  | none => .error .indexError

/-- `Inputs.__setitem__` with an int index:
normalize a negative index by adding the length, read the old
occupant (may raise `IndexError`), remove its reverse edge (may raise
`KeyError`), add the new reverse edge, write the slot. -/
def setItem (s : State) (owner : NodeId) (index : Int) (v : NodeId) :
    State × Option Err :=
  let index := pyNorm ((s owner).inputs.length) index
  match pyGet (s owner).inputs index with
  | none => (s, some .indexError)
  | some old =>
    match usesErase s old (owner, index) with
    | (s1, some e) => (s1, some e)
    | (s1, none) =>
      let s2 := usesInsert s1 v (owner, index)
      (setInputsList s2 owner (pySet ((s2 owner).inputs) index v), none)

/-- The re-keying loop of `Inputs.__delitem__`:
`for i, next_value in enumerate(self.data[index + 1:]):` — the i-th
element (at original position `j + 1`) has its reverse edge moved
from `j + 1` down to `j`. -/
def delShiftLoop (owner : NodeId) : State → List NodeId → Int → State × Option Err
  | s, [], _ => (s, none)
  | s, v :: rest, j =>
    match usesErase s v (owner, j + 1) with
    | (s1, some e) => (s1, some e)
    | (s1, none) => delShiftLoop owner (usesInsert s1 v (owner, j)) rest (j + 1)

/-- `Inputs.__delitem__` with an int index: normalize, read the
element (may raise `IndexError`), remove its reverse edge (may raise
`KeyError`), re-key every later element's reverse edge down by one,
delete the slot. -/
def delItem (s : State) (owner : NodeId) (index : Int) : State × Option Err :=
  let index := pyNorm ((s owner).inputs.length) index
  match pyGet (s owner).inputs index with
  | none => (s, some .indexError)
  | some v =>
    match usesErase s v (owner, index) with
    | (s1, some e) => (s1, some e)
    | (s1, none) =>
      match delShiftLoop owner s1 (pyDropFrom ((s1 owner).inputs) (index + 1)) index with
      | (s2, some e) => (s2, some e)
      | (s2, none) => (setInputsList s2 owner (pyEraseAt ((s2 owner).inputs) index), none)

/-- The re-keying loop of `Inputs.insert`:
`for i, next_value in enumerate(reversed(self.data[index:]))` — the
element at position `k` (processed from the highest position down)
has its reverse edge moved from `k` up to `k + 1`. -/
def insShiftLoop (owner : NodeId) : State → List NodeId → Int → State × Option Err
  | s, [], _ => (s, none)
  | s, v :: rest, k =>
    match usesErase s v (owner, k) with
    | (s1, some e) => (s1, some e)
    | (s1, none) => insShiftLoop owner (usesInsert s1 v (owner, k + 1)) rest (k - 1)

/-- `Inputs.insert(index, value)`: normalize, re-key every element at
position `≥ index` up by one (highest first), add the fresh reverse
edge `(owner, index)`, then `self.data.insert(index, value)` (which
clamps, unlike the recorded edge). -/
def insertItem (s : State) (owner : NodeId) (index : Int) (v : NodeId) :
    State × Option Err :=
  let n := (s owner).inputs.length
  let index := pyNorm n index
  match insShiftLoop owner s ((pyDropFrom ((s owner).inputs) index).reverse) ((n : Int) - 1) with
  | (s1, some e) => (s1, some e)
  | (s1, none) =>
    let s2 := usesInsert s1 v (owner, index)
    (setInputsList s2 owner (pyInsertAt ((s2 owner).inputs) index v), none)

/-- A Python subscript: an int or a slice. -/
inductive PyIdx where
  | int : Int → PyIdx
  | slice : Option Int → Option Int → PyIdx

/-- Full `Inputs.__setitem__` dispatch: a slice index raises
`ValueError("slice assignment not supported")` before touching
anything. -/
def setItemIdx (s : State) (owner : NodeId) (idx : PyIdx) (v : NodeId) :
    State × Option Err :=
  match idx with
  | .slice _ _ => (s, some .valueError)
  | .int i => setItem s owner i v

/-- Full `Inputs.__delitem__` dispatch: a slice index raises
`ValueError("slice deletion not supported")` before touching
anything. -/
def delItemIdx (s : State) (owner : NodeId) (idx : PyIdx) : State × Option Err :=
  match idx with
  | .slice _ _ => (s, some .valueError)
  | .int i => delItem s owner i

/-- `MutableSequence.append`: `self.insert(len(self), value)`. -/
def appendItem (s : State) (owner : NodeId) (v : NodeId) : State × Option Err :=
  insertItem s owner (((s owner).inputs.length : Nat) : Int) v

/-- `MutableSequence.extend`: append each value in order. -/
def extendNode : State → NodeId → List NodeId → State × Option Err
  | s, _, [] => (s, none)
  | s, owner, v :: rest =>
    match appendItem s owner v with
    | (s1, some e) => (s1, some e)
    | (s1, none) => extendNode s1 owner rest

/-- `MutableSequence.clear`: `pop()` (read `self[-1]`, then
`del self[-1]`) until the read raises `IndexError`, which is caught.
The loop runs exactly `len(self)` times; the fuel argument makes the
recursion structural. -/
def clearFuel (owner : NodeId) : State → Nat → State × Option Err
  | s, 0 => (s, none)
  | s, fuel + 1 =>
    if (s owner).inputs.isEmpty then (s, none)
    else
      match delItem s owner (-1) with
      | (s1, some e) => (s1, some e)
      | (s1, none) => clearFuel owner s1 fuel

/-- `Inputs.clear()` (inherited from `MutableSequence`). -/
def clearNode (s : State) (owner : NodeId) : State × Option Err :=
  clearFuel owner s ((s owner).inputs.length)

/-! ## Node construction (`ANFNode.__init__` and the variants) -/

/-- `ANFNode.__init__`: fresh record, then
`self._inputs = Inputs(self, inputs)` which `extend`s from the empty
list.  (The source assigns `self.uses = set()` after building
`Inputs`; the orders agree because a fresh Python object cannot occur
among its own constructor inputs.) -/
def mkNode (s : State) (nid : NodeId) (inputs : List NodeId) (v : Value)
    (g : Option Nat) : State × Option Err :=
  extendNode (upd s nid ⟨[], ∅, v, g⟩) nid inputs

/-- `Parameter.__init__`: `super().__init__([], PARAMETER, graph)`. -/
def mkParameter (s : State) (nid : NodeId) (g : Nat) : State × Option Err :=
  mkNode s nid [] .parameterTag (some g)

/-- `Return.__init__`: `super().__init__([input_], RETURN, graph)`. -/
def mkReturn (s : State) (nid : NodeId) (inp : NodeId) (g : Nat) : State × Option Err :=
  mkNode s nid [inp] .returnTag (some g)

/-- `Constant.__init__`: `super().__init__([], value, None)`. -/
def mkConstant (s : State) (nid : NodeId) (v : Value) : State × Option Err :=
  mkNode s nid [] v none

/-- `Apply.__init__`: `super().__init__(inputs, None, graph)`. -/
def mkApply (s : State) (nid : NodeId) (inputs : List NodeId) (g : Nat) :
    State × Option Err :=
  mkNode s nid inputs .noneVal (some g)

/-! ## `ANFNode.replace` -/

/-- Canonical linear order on reverse-edge pairs, standing in for
CPython's unspecified set-iteration order. -/
def pairLe (p q : Nat × Int) : Prop :=
  p.1 < q.1 ∨ (p.1 = q.1 ∧ p.2 ≤ q.2)

instance : DecidableRel pairLe := fun p q => by
  unfold pairLe; exact inferInstance

/-- Merge two optional pairs, keeping the `pairLe`-least. -/
def pickMerge (p q : Option (Nat × Int)) : Option (Nat × Int) :=
  match p, q with
  | none, q => q
  | p, none => p
  | some p, some q => some (if pairLe p q then p else q)

instance : Std.Commutative pickMerge :=
  ⟨by
    rintro (- | ⟨a1, a2⟩) (- | ⟨b1, b2⟩) <;> simp only [pickMerge] <;>
      split_ifs <;> simp_all [pairLe, Prod.mk.injEq] <;> omega⟩

instance : Std.Associative pickMerge :=
  ⟨by
    rintro (- | ⟨a1, a2⟩) (- | ⟨b1, b2⟩) (- | ⟨c1, c2⟩) <;> simp only [pickMerge] <;>
      split_ifs <;> simp_all [pairLe, Prod.mk.injEq] <;> omega⟩

/-- The first pair CPython's iterator would yield, modelled as the
`pairLe`-least pair of the set; `none` iff the set is empty. -/
def pickOfUses (u : Finset (NodeId × Int)) : Option (NodeId × Int) :=
  u.fold pickMerge none (fun p => some p)

/-- Phases 1–2 of `ANFNode.replace(self=a, other=b)`:
`other.inputs = self.inputs` — the `inputs` property setter first
clears `other`'s old input sequence, then builds a fresh `Inputs`
extending with `self`'s (live) input list — followed by
`self.inputs.clear()`. -/
def replacePhases (s : State) (a b : NodeId) : State × Option Err :=
  match clearNode s b with
  | (s1, some e) => (s1, some e)
  | (s1, none) =>
    match extendNode s1 b ((s1 a).inputs) with
    | (s2, some e) => (s2, some e)
    | (s2, none) => clearNode s2 a

/-- The final loop of `replace`:
`for node, index in self.uses: node.inputs[index] = other`.
`__setitem__` removes `(node, index)` from the very set being
iterated, so CPython raises `RuntimeError` at the loop's next step;
with an empty set the loop body never runs.  `pick` is the pair the
iterator yields first. -/
def replFinish (s : State) (b : NodeId) (pick : Option (NodeId × Int)) :
    State × Option Err :=
  match pick with
  | none => (s, none)
  | some (n, i) =>
    match setItem s n i b with
    | (s1, some e) => (s1, some e)
    | (s1, none) => (s1, some .runtimeError)

/-- `ANFNode.replace(self=a, other=b)` with the canonical iteration
order. -/
def replaceNode (s : State) (a b : NodeId) : State × Option Err :=
  match replacePhases s a b with
  | (s1, some e) => (s1, some e)
  | (s1, none) => replFinish s1 b (pickOfUses ((s1 a).uses))

/-- `ANFNode.outgoing`: `(node for node, index in self.uses)` — one
yield per use-pair, in unspecified order: a multiset of user ids. -/
def outgoing (s : State) (n : NodeId) : Multiset NodeId :=
  ((s n).uses.val).map Prod.fst

/-! ## Operation sequences -/

/-- One mutation step: construction, the `Inputs` operations (with
int or slice indices), `clear`, or `replace`. -/
inductive Op where
  | mk : NodeId → List NodeId → Value → Option Nat → Op
  | ins : NodeId → Int → NodeId → Op
  | del : NodeId → Int → Op
  | set : NodeId → Int → NodeId → Op
  | setSlice : NodeId → Option Int → Option Int → NodeId → Op
  | delSlice : NodeId → Option Int → Option Int → Op
  | clr : NodeId → Op
  | repl : NodeId → NodeId → Op

/-- Run one operation. -/
def runOp (s : State) : Op → State × Option Err
  | .mk nid inputs v g => mkNode s nid inputs v g
  | .ins o i v => insertItem s o i v
  | .del o i => delItem s o i
  | .set o i v => setItem s o i v
  | .setSlice o lo hi v => setItemIdx s o (.slice lo hi) v
  | .delSlice o lo hi => delItemIdx s o (.slice lo hi)
  | .clr o => clearNode s o
  | .repl a b => replaceNode s a b

/-- Side conditions under which an operation step is well-posed:
construction uses a fresh id (and a Python object cannot be an input
of its own constructor call), and `insert` receives an index within
`[-n, n]` — Python accepts indices outside that range but then
records a reverse edge whose index `list.insert` clamps away.
All other operations need no condition. -/
def goodOp (s : State) : Op → Bool
  | .mk nid inputs _ _ => decide (s nid = defaultNode) && !(inputs.contains nid)
  | .ins o i _ =>
    decide (-(((s o).inputs.length : Nat) : Int) ≤ i ∧ i ≤ (((s o).inputs.length : Nat) : Int))
  | _ => true

/-- Run a sequence of operations; an uncaught exception aborts the
rest of the sequence, leaving the state as it was at raise time. -/
def runOps : State → List Op → State
  | s, [] => s
  | s, op :: rest =>
    match runOp s op with
    | (s1, none) => runOps s1 rest
    | (s1, some _) => s1

/-- Every executed operation of the sequence is well-posed
(operations after an uncaught exception do not execute). -/
def goodSeq : State → List Op → Bool
  | _, [] => true
  | s, op :: rest =>
    goodOp s op &&
      (match runOp s op with
       | (s1, none) => goodSeq s1 rest
       | (_, some _) => true)

/-! ## The bidirectionality invariant -/

/-- Read a forward edge with an already-normalized index:
`lGet l t = some m` iff `0 ≤ t` and `l[t] = m`. -/
def lGet (l : List NodeId) (t : Int) : Option NodeId :=
  if 0 ≤ t then l[t.toNat]? else none

/-- Bidirectional use/def consistency: `(q, t) ∈ m.uses` iff node `q`
has `m` at input position `t`. -/
def Inv (s : State) : Prop :=
  ∀ q m : NodeId, ∀ t : Int, ((q, t) ∈ (s m).uses ↔ lGet ((s q).inputs) t = some m)

/-! ## Basic lemmas about state updates -/

theorem upd_same (s : State) (n : NodeId) (d : NodeData) : upd s n d n = d := by
  simp [upd]

theorem upd_apply (s : State) (n : NodeId) (d : NodeData) (k : NodeId) :
    upd s n d k = if k = n then d else s k := rfl

@[simp] theorem usesInsert_inputs (s : State) (m : NodeId) (p : NodeId × Int)
    (k : NodeId) : ((usesInsert s m p) k).inputs = (s k).inputs := by
  simp only [usesInsert, upd]
  split <;> simp_all

@[simp] theorem usesInsert_value (s : State) (m : NodeId) (p : NodeId × Int)
    (k : NodeId) : ((usesInsert s m p) k).value = (s k).value := by
  simp only [usesInsert, upd]
  split <;> simp_all

@[simp] theorem usesInsert_graph (s : State) (m : NodeId) (p : NodeId × Int)
    (k : NodeId) : ((usesInsert s m p) k).graph = (s k).graph := by
  simp only [usesInsert, upd]
  split <;> simp_all

theorem mem_usesInsert (s : State) (m : NodeId) (p x : NodeId × Int) (k : NodeId) :
    x ∈ ((usesInsert s m p) k).uses ↔ ((k = m ∧ x = p) ∨ x ∈ (s k).uses) := by
  simp only [usesInsert, upd]
  split
  · next h => subst h; simp [Finset.mem_insert]
  · next h => simp [h]

/-- The state produced by a successful `set.remove`. -/
def usesErased (s : State) (m : NodeId) (p : NodeId × Int) : State :=
  upd s m { s m with uses := (s m).uses.erase p }

theorem usesErase_of_mem {s : State} {m : NodeId} {p : NodeId × Int}
    (h : p ∈ (s m).uses) : usesErase s m p = (usesErased s m p, none) := by
  simp [usesErase, usesErased, h]

theorem usesErase_of_not_mem {s : State} {m : NodeId} {p : NodeId × Int}
    (h : p ∉ (s m).uses) : usesErase s m p = (s, some .keyError) := by
  simp [usesErase, h]

@[simp] theorem usesErased_inputs (s : State) (m : NodeId) (p : NodeId × Int)
    (k : NodeId) : ((usesErased s m p) k).inputs = (s k).inputs := by
  simp only [usesErased, upd]
  split <;> simp_all

@[simp] theorem usesErased_value (s : State) (m : NodeId) (p : NodeId × Int)
    (k : NodeId) : ((usesErased s m p) k).value = (s k).value := by
  simp only [usesErased, upd]
  split <;> simp_all

@[simp] theorem usesErased_graph (s : State) (m : NodeId) (p : NodeId × Int)
    (k : NodeId) : ((usesErased s m p) k).graph = (s k).graph := by
  simp only [usesErased, upd]
  split <;> simp_all

theorem mem_usesErased (s : State) (m : NodeId) (p x : NodeId × Int) (k : NodeId) :
    x ∈ ((usesErased s m p) k).uses ↔ (x ∈ (s k).uses ∧ (k = m → x ≠ p)) := by
  simp only [usesErased, upd]
  split
  · next h => subst h; simp [Finset.mem_erase]; tauto
  · next h => simp [h]

theorem mem_usesInsert_pair (s : State) (m : NodeId) (a : NodeId) (b : Int)
    (q : NodeId) (t : Int) (k : NodeId) :
    (q, t) ∈ ((usesInsert s m (a, b)) k).uses ↔
      ((k = m ∧ q = a ∧ t = b) ∨ (q, t) ∈ (s k).uses) := by
  rw [mem_usesInsert]
  constructor
  · rintro (⟨hk, hp⟩ | h)
    · exact Or.inl ⟨hk, congrArg Prod.fst hp, congrArg Prod.snd hp⟩
    · exact Or.inr h
  · rintro (⟨hk, hq, ht⟩ | h)
    · subst hq; subst ht
      exact Or.inl ⟨hk, rfl⟩
    · exact Or.inr h

theorem mem_usesErased_pair (s : State) (m : NodeId) (a : NodeId) (b : Int)
    (q : NodeId) (t : Int) (k : NodeId) :
    (q, t) ∈ ((usesErased s m (a, b)) k).uses ↔
      ((q, t) ∈ (s k).uses ∧ (k = m → ¬(q = a ∧ t = b))) := by
  rw [mem_usesErased]
  constructor
  · rintro ⟨h, hc⟩
    refine ⟨h, fun hk ⟨hq, ht⟩ => ?_⟩
    subst hq; subst ht
    exact hc hk rfl
  · rintro ⟨h, hc⟩
    refine ⟨h, fun hk hp => ?_⟩
    exact hc hk ⟨congrArg Prod.fst hp, congrArg Prod.snd hp⟩

@[simp] theorem setInputsList_uses (s : State) (n : NodeId) (l : List NodeId)
    (k : NodeId) : ((setInputsList s n l) k).uses = (s k).uses := by
  simp only [setInputsList, upd]
  split <;> simp_all

@[simp] theorem setInputsList_value (s : State) (n : NodeId) (l : List NodeId)
    (k : NodeId) : ((setInputsList s n l) k).value = (s k).value := by
  simp only [setInputsList, upd]
  split <;> simp_all

@[simp] theorem setInputsList_graph (s : State) (n : NodeId) (l : List NodeId)
    (k : NodeId) : ((setInputsList s n l) k).graph = (s k).graph := by
  simp only [setInputsList, upd]
  split <;> simp_all

theorem setInputsList_inputs (s : State) (n : NodeId) (l : List NodeId)
    (k : NodeId) :
    ((setInputsList s n l) k).inputs = if k = n then l else (s k).inputs := by
  simp only [setInputsList, upd]
  split <;> simp_all

theorem setInputsList_inputs_self (s : State) (n : NodeId) (l : List NodeId) :
    ((setInputsList s n l) n).inputs = l := by
  rw [setInputsList_inputs, if_pos rfl]

theorem setInputsList_inputs_ne (s : State) (n : NodeId) (l : List NodeId)
    {k : NodeId} (h : k ≠ n) :
    ((setInputsList s n l) k).inputs = (s k).inputs := by
  rw [setInputsList_inputs, if_neg h]

/-! ## Lemmas about `lGet` -/

theorem lGet_coe (l : List NodeId) (k : Nat) : lGet l (k : Int) = l[k]? := by
  simp [lGet]

theorem lGet_neg {l : List NodeId} {t : Int} (h : t < 0) : lGet l t = none := by
  simp [lGet]
  omega

theorem lGet_some {l : List NodeId} {t : Int} {m : NodeId}
    (h : lGet l t = some m) : 0 ≤ t ∧ t < (l.length : Int) := by
  by_cases h0 : 0 ≤ t
  · refine ⟨h0, ?_⟩
    simp only [lGet, if_pos h0] at h
    obtain ⟨hlt, -⟩ := List.getElem?_eq_some_iff.mp h
    omega
  · simp [lGet, h0] at h

/-! ## List shape lemmas -/

theorem getElem?_insertShape_lt {l : List NodeId} {j t : Nat} (v : NodeId)
    (hj : j ≤ l.length) (h : t < j) :
    (l.take j ++ v :: l.drop j)[t]? = l[t]? := by
  have hlt : t < (l.take j).length := by
    simp [List.length_take]
    omega
  rw [List.getElem?_append, if_pos hlt]
  exact List.getElem?_take_of_lt h

theorem getElem?_insertShape_self {l : List NodeId} {j : Nat} (v : NodeId)
    (hj : j ≤ l.length) :
    (l.take j ++ v :: l.drop j)[j]? = some v := by
  have hlen : (l.take j).length = j := by
    simp [List.length_take]
    omega
  rw [List.getElem?_append_right (by omega : (l.take j).length ≤ j)]
  rw [hlen]
  simp

theorem getElem?_insertShape_gt {l : List NodeId} {j t : Nat} (v : NodeId)
    (hj : j ≤ l.length) (h : j < t) :
    (l.take j ++ v :: l.drop j)[t]? = l[t - 1]? := by
  have hlen : (l.take j).length = j := by
    simp [List.length_take]
    omega
  rw [List.getElem?_append_right (by omega : (l.take j).length ≤ t)]
  rw [hlen]
  have ht : t - j = (t - j - 1) + 1 := by omega
  rw [ht]
  simp only [List.getElem?_cons_succ]
  rw [List.getElem?_drop]
  congr 1
  omega

theorem length_insertShape (l : List NodeId) (j : Nat) (v : NodeId)
    (hj : j ≤ l.length) :
    (l.take j ++ v :: l.drop j).length = l.length + 1 := by
  simp [List.length_take, List.length_drop]
  omega

/-! ## `__setitem__` specification -/

theorem pyNorm_bounds {n : Nat} {i : Int} (h0 : -(n : Int) ≤ i)
    (h1 : i < (n : Int)) : 0 ≤ pyNorm n i ∧ pyNorm n i < (n : Int) := by
  unfold pyNorm
  split <;> omega

/-- Successful `__setitem__` (in-range index, consistent state): the
slot is written, and the invariant is preserved.  The normalized
position is `(pyNorm n i).toNat`. -/
theorem setItem_ok {s : State} {o : NodeId} {i : Int} (v : NodeId) (hInv : Inv s)
    (h0 : -(((s o).inputs.length : Nat) : Int) ≤ i)
    (h1 : i < (((s o).inputs.length : Nat) : Int)) :
    (setItem s o i v).2 = none ∧
    (∀ k, ((setItem s o i v).1 k).inputs =
      if k = o then (s o).inputs.set (pyNorm (s o).inputs.length i).toNat v
      else (s k).inputs) ∧
    Inv (setItem s o i v).1 := by
  set jI := pyNorm (s o).inputs.length i with hjIdef
  obtain ⟨hj0, hj1⟩ := pyNorm_bounds h0 h1
  set jN := jI.toNat with hjNdef
  have hjN : (jN : Int) = jI := Int.toNat_of_nonneg hj0
  have hjlt : jN < (s o).inputs.length := by omega
  set old := (s o).inputs.get ⟨jN, hjlt⟩ with holddef
  have hold : (s o).inputs[jN]? = some old := List.getElem?_eq_getElem hjlt
  have hpy : pyGet (s o).inputs jI = some old := by
    simp [pyGet, pyIndex, if_pos hj0, if_pos hj1, hold]
  have hmem : (o, jI) ∈ (s old).uses := by
    rw [hInv o old jI]
    simp only [lGet, if_pos hj0]
    exact hold
  have heq : setItem s o i v =
      (setInputsList (usesInsert (usesErased s old (o, jI)) v (o, jI)) o
        ((s o).inputs.set jN v), none) := by
    simp only [setItem, ← hjIdef, hpy, usesErase_of_mem hmem]
    congr 1
    simp only [usesInsert_inputs, usesErased_inputs]
    simp only [pySet, pyIndex, if_pos hj0, if_pos hj1]
  have hI : ∀ k, ((setItem s o i v).1 k).inputs =
      if k = o then (s o).inputs.set jN v else (s k).inputs := by
    intro k
    rw [heq]
    simp only [setInputsList_inputs, usesInsert_inputs, usesErased_inputs]
  have hU : ∀ k x, x ∈ (((setItem s o i v).1) k).uses ↔
      ((k = v ∧ x = (o, jI)) ∨ (x ∈ (s k).uses ∧ (k = old → x ≠ (o, jI)))) := by
    intro k x
    rw [heq]
    simp only [setInputsList_uses, mem_usesInsert, mem_usesErased]
  refine ⟨by rw [heq], hI, ?_⟩
  intro q m t
  rw [hU m (q, t)]
  rw [show lGet (((setItem s o i v).1 q).inputs) t =
      lGet (if q = o then (s o).inputs.set jN v else (s q).inputs) t from by rw [hI q]]
  by_cases hq : q = o
  · subst hq
    rw [if_pos rfl]
    by_cases ht : t = jI
    · subst ht
      constructor
      · rintro (⟨hm, -⟩ | ⟨hmem2, hcond⟩)
        · subst hm
          simp only [lGet, if_pos hj0, ← hjNdef]
          rw [List.getElem?_set, if_pos rfl, if_pos hjlt]
        · exfalso
          have hx := (hInv q m jI).mp hmem2
          simp only [lGet, if_pos hj0, ← hjNdef, hold] at hx
          exact (hcond (Option.some.inj hx).symm) rfl
      · intro hr
        simp only [lGet, if_pos hj0, ← hjNdef] at hr
        rw [List.getElem?_set, if_pos rfl, if_pos hjlt] at hr
        exact Or.inl ⟨(Option.some.inj hr).symm, rfl⟩
    · have hmain : lGet ((s q).inputs.set jN v) t = lGet ((s q).inputs) t := by
        by_cases ht0 : 0 ≤ t
        · simp only [lGet, if_pos ht0]
          rw [List.getElem?_set, if_neg (by omega : ¬ jN = t.toNat)]
        · rw [lGet_neg (by omega), lGet_neg (by omega)]
      rw [hmain, ← hInv q m t]
      constructor
      · rintro (⟨-, hp⟩ | ⟨hmem2, -⟩)
        · exact absurd (congrArg Prod.snd hp) ht
        · exact hmem2
      · intro hr
        exact Or.inr ⟨hr, fun _ hp => ht (congrArg Prod.snd hp)⟩
  · rw [if_neg hq, ← hInv q m t]
    constructor
    · rintro (⟨-, hp⟩ | ⟨hmem2, -⟩)
      · exact absurd (congrArg Prod.fst hp) hq
      · exact hmem2
    · intro hr
      exact Or.inr ⟨hr, fun _ hp => hq (congrArg Prod.fst hp)⟩

/-- Out-of-range `__setitem__` raises (`IndexError`, or `KeyError` on
the doubly-negative path) before any mutation. -/
theorem setItem_out {s : State} {o : NodeId} {i : Int} (v : NodeId) (hInv : Inv s)
    (h : i < -(((s o).inputs.length : Nat) : Int) ∨
      (((s o).inputs.length : Nat) : Int) ≤ i) :
    (setItem s o i v).1 = s ∧ (setItem s o i v).2 ≠ none := by
  rcases hpg : pyGet (s o).inputs (pyNorm (s o).inputs.length i) with - | old
  · constructor
    · simp [setItem, hpg]
    · simp [setItem, hpg]
  · have hjneg : pyNorm (s o).inputs.length i < 0 := by
      rcases h with h | h
      · simp only [pyNorm]
        rw [if_pos (by omega)]
        omega
      · exfalso
        have hj : pyNorm (s o).inputs.length i = i := by
          simp only [pyNorm]
          rw [if_neg (by omega)]
        rw [hj] at hpg
        simp only [pyGet, pyIndex, if_pos (by omega : (0:Int) ≤ i),
          if_neg (by omega : ¬ i < ((s o).inputs.length : Int))] at hpg
        exact Option.noConfusion hpg
    have hnm : (o, pyNorm (s o).inputs.length i) ∉ (s old).uses := by
      rw [hInv, lGet_neg hjneg]
      simp
    constructor
    · simp [setItem, hpg, usesErase_of_not_mem hnm]
    · simp [setItem, hpg, usesErase_of_not_mem hnm]

/-- `__setitem__` preserves the invariant for every index. -/
theorem setItem_inv {s : State} {o : NodeId} {i : Int} (v : NodeId)
    (hInv : Inv s) : Inv (setItem s o i v).1 := by
  by_cases h : -(((s o).inputs.length : Nat) : Int) ≤ i ∧
      i < (((s o).inputs.length : Nat) : Int)
  · exact (setItem_ok v hInv h.1 h.2).2.2
  · rw [(setItem_out v hInv (by omega)).1]
    exact hInv

/-! ## `__delitem__` specification -/

/-- Use-set contents mid-way through the `__delitem__` re-keying loop:
the edge of the deleted position `j` is gone, positions `j+1 .. p-1`
have been re-keyed down by one, positions `≥ p` are still untouched. -/
def delSpecMem (s0 : State) (o : NodeId) (j p : Nat) (q m : NodeId) (t : Int) : Prop :=
  if q = o then
    ((t < (j : Int) ∧ lGet ((s0 o).inputs) t = some m) ∨
     ((j : Int) ≤ t ∧ t < (p : Int) - 1 ∧ lGet ((s0 o).inputs) (t + 1) = some m) ∨
     ((p : Int) ≤ t ∧ lGet ((s0 o).inputs) t = some m))
  else (q, t) ∈ (s0 m).uses

/-- Mid-loop state description for `__delitem__`. -/
def DelMid (s0 : State) (o : NodeId) (j p : Nat) (σ : State) : Prop :=
  (∀ r, (σ r).inputs = (s0 r).inputs) ∧
  (∀ q m t, ((q, t) ∈ (σ m).uses ↔ delSpecMem s0 o j p q m t))

theorem delStep {s0 : State} {o : NodeId} {j p : Nat} {σ : State} {e : NodeId}
    (hjp : j + 1 ≤ p) (he : (s0 o).inputs[p]? = some e) (hmid : DelMid s0 o j p σ) :
    (o, (p : Int)) ∈ (σ e).uses ∧
    DelMid s0 o j (p + 1) (usesInsert (usesErased σ e (o, (p : Int))) e (o, (p : Int) - 1)) := by
  have hGp : lGet ((s0 o).inputs) (p : Int) = some e := by
    rw [lGet_coe]
    exact he
  have hmem : (o, (p : Int)) ∈ (σ e).uses := by
    rw [hmid.2 o e (p : Int)]
    simp only [delSpecMem, if_pos rfl]
    exact Or.inr (Or.inr ⟨le_refl _, hGp⟩)
  refine ⟨hmem, ?_, ?_⟩
  · intro r
    simp only [usesInsert_inputs, usesErased_inputs]
    exact hmid.1 r
  · intro q m t
    rw [mem_usesInsert_pair, mem_usesErased_pair, hmid.2 q m t]
    simp only [delSpecMem]
    by_cases hq : q = o
    · simp only [if_pos hq]
      constructor
      · rintro (⟨hme, -, htp⟩ | ⟨hspec, hcond⟩)
        · refine Or.inr (Or.inl ⟨by omega, by omega, ?_⟩)
          rw [htp, show (p : Int) - 1 + 1 = (p : Int) by omega, hGp, hme]
        · rcases hspec with ⟨h1, h2⟩ | ⟨h1, h2, h3⟩ | ⟨h1, h2⟩
          · exact Or.inl ⟨h1, h2⟩
          · exact Or.inr (Or.inl ⟨h1, by omega, h3⟩)
          · by_cases htp : t = (p : Int)
            · exfalso
              rw [htp, hGp] at h2
              exact (hcond (Option.some.inj h2).symm) ⟨hq, htp⟩
            · exact Or.inr (Or.inr ⟨by omega, h2⟩)
      · rintro (⟨h1, h2⟩ | ⟨h1, h2, h3⟩ | ⟨h1, h2⟩)
        · exact Or.inr ⟨Or.inl ⟨h1, h2⟩, fun _ hpr => by omega⟩
        · by_cases htp : t = (p : Int) - 1
          · rw [htp, show (p : Int) - 1 + 1 = (p : Int) by omega, hGp] at h3
            exact Or.inl ⟨(Option.some.inj h3).symm, hq, htp⟩
          · exact Or.inr ⟨Or.inr (Or.inl ⟨h1, by omega, h3⟩), fun _ hpr => by omega⟩
        · exact Or.inr ⟨Or.inr (Or.inr ⟨by omega, h2⟩), fun _ hpr => by omega⟩
    · simp only [if_neg hq]
      constructor
      · rintro (⟨-, hqo, -⟩ | ⟨hmem2, -⟩)
        · exact absurd hqo hq
        · exact hmem2
      · intro hr
        exact Or.inr ⟨hr, fun _ hpr => absurd hpr.1 hq⟩

theorem delShiftLoop_go {s0 : State} {o : NodeId} {j : Nat} :
    ∀ (fuel p : Nat) (σ : State), j + 1 ≤ p →
      p + fuel = (s0 o).inputs.length →
      DelMid s0 o j p σ →
      (delShiftLoop o σ ((s0 o).inputs.drop p) ((p : Int) - 1)).2 = none ∧
      DelMid s0 o j ((s0 o).inputs.length)
        ((delShiftLoop o σ ((s0 o).inputs.drop p) ((p : Int) - 1)).1)
  | 0, p, σ, hjp, hfuel, hmid => by
    have hp : p = (s0 o).inputs.length := by omega
    subst hp
    rw [List.drop_length]
    exact ⟨rfl, hmid⟩
  | fuel + 1, p, σ, hjp, hfuel, hmid => by
    have hp : p < (s0 o).inputs.length := by omega
    have he : (s0 o).inputs[p]? = some ((s0 o).inputs.get ⟨p, hp⟩) :=
      List.getElem?_eq_getElem hp
    obtain ⟨hmem, hmid2⟩ := delStep hjp he hmid
    have hdropc : (s0 o).inputs.drop p =
        (s0 o).inputs.get ⟨p, hp⟩ :: (s0 o).inputs.drop (p + 1) := by
      rw [List.drop_eq_getElem_cons hp]
      rfl
    rw [hdropc, delShiftLoop]
    rw [show (p : Int) - 1 + 1 = (p : Int) by omega]
    rw [usesErase_of_mem hmem]
    have hrec := delShiftLoop_go fuel (p + 1)
      (usesInsert (usesErased σ ((s0 o).inputs.get ⟨p, hp⟩) (o, (p : Int)))
        ((s0 o).inputs.get ⟨p, hp⟩) (o, (p : Int) - 1))
      (by omega) (by omega) hmid2
    have hc : ((p + 1 : Nat) : Int) - 1 = (p : Int) := by omega
    rw [hc] at hrec
    exact hrec

/-- Successful `__delitem__` (in-range index, consistent state): the
slot is removed, later reverse edges are re-keyed down by one, and the
invariant is preserved. -/
theorem delItem_ok {s : State} {o : NodeId} {i : Int} (hInv : Inv s)
    (h0 : -(((s o).inputs.length : Nat) : Int) ≤ i)
    (h1 : i < (((s o).inputs.length : Nat) : Int)) :
    (delItem s o i).2 = none ∧
    (∀ k, ((delItem s o i).1 k).inputs =
      if k = o then (s o).inputs.eraseIdx (pyNorm (s o).inputs.length i).toNat
      else (s k).inputs) ∧
    Inv (delItem s o i).1 := by
  set jI := pyNorm (s o).inputs.length i with hjIdef
  obtain ⟨hj0, hj1⟩ := pyNorm_bounds h0 h1
  set jN := jI.toNat with hjNdef
  have hjN : (jN : Int) = jI := Int.toNat_of_nonneg hj0
  have hjlt : jN < (s o).inputs.length := by omega
  set v0 := (s o).inputs.get ⟨jN, hjlt⟩ with hv0def
  have hold : (s o).inputs[jN]? = some v0 := List.getElem?_eq_getElem hjlt
  have hpy : pyGet (s o).inputs jI = some v0 := by
    simp [pyGet, pyIndex, if_pos hj0, if_pos hj1, hold]
  have hmem0 : (o, jI) ∈ (s v0).uses := by
    rw [hInv o v0 jI]
    simp only [lGet, if_pos hj0, ← hjNdef]
    exact hold
  have hmid1 : DelMid s o jN (jN + 1) (usesErased s v0 (o, jI)) := by
    constructor
    · intro r
      simp only [usesErased_inputs]
    · intro q m t
      rw [mem_usesErased_pair]
      simp only [delSpecMem]
      by_cases hq : q = o
      · simp only [if_pos hq]
        rw [hq, hInv o m t]
        constructor
        · rintro ⟨hG, hc⟩
          by_cases ht : t = jI
          · exfalso
            rw [ht] at hG
            simp only [lGet, if_pos hj0, ← hjNdef, hold] at hG
            exact hc (Option.some.inj hG).symm ⟨rfl, ht⟩
          · by_cases htlt : t < (jN : Int)
            · exact Or.inl ⟨htlt, hG⟩
            · exact Or.inr (Or.inr ⟨by omega, hG⟩)
        · rintro (⟨h2, h3⟩ | ⟨h2, h3, -⟩ | ⟨h2, h3⟩)
          · exact ⟨h3, fun _ hpr => by omega⟩
          · omega
          · exact ⟨h3, fun _ hpr => by omega⟩
      · simp only [if_neg hq]
        constructor
        · rintro ⟨h2, -⟩
          exact h2
        · intro h2
          exact ⟨h2, fun _ hpr => absurd hpr.1 hq⟩
  have hdrop : pyDropFrom (((usesErased s v0 (o, jI)) o).inputs) (jI + 1) =
      (s o).inputs.drop (jN + 1) := by
    simp only [usesErased_inputs, pyDropFrom, if_pos (by omega : (0:Int) ≤ jI + 1)]
    congr 1
    omega
  have hloop := delShiftLoop_go ((s o).inputs.length - (jN + 1)) (jN + 1)
    (usesErased s v0 (o, jI)) (by omega) (by omega) hmid1
  have hcast : (((jN + 1 : Nat)) : Int) - 1 = jI := by omega
  rw [hcast] at hloop
  rcases hloopEq : delShiftLoop o (usesErased s v0 (o, jI)) ((s o).inputs.drop (jN + 1)) jI
    with ⟨σf, ef⟩
  rw [hloopEq] at hloop
  obtain ⟨hef, hmidf⟩ := hloop
  simp only at hef
  subst hef
  have heq : delItem s o i =
      (setInputsList σf o ((s o).inputs.eraseIdx jN), none) := by
    simp only [delItem, ← hjIdef, hpy, usesErase_of_mem hmem0, hdrop, hloopEq]
    congr 1
    have hfi : (σf o).inputs = (s o).inputs := hmidf.1 o
    rw [hfi]
    simp only [pyEraseAt, pyIndex, if_pos hj0, if_pos hj1]
  refine ⟨by rw [heq], ?_, ?_⟩
  · intro k
    rw [heq]
    simp only [setInputsList_inputs]
    split
    · rfl
    · exact hmidf.1 k
  · intro q m t
    rw [heq]
    simp only [setInputsList_uses, setInputsList_inputs]
    rw [hmidf.2 q m t]
    simp only [delSpecMem]
    by_cases hq : q = o
    · simp only [if_pos hq]
      by_cases ht0 : 0 ≤ t
      · have htoNat : ((t.toNat : Nat) : Int) = t := Int.toNat_of_nonneg ht0
        constructor
        · rintro (⟨h2, h3⟩ | ⟨h2, h3, h4⟩ | ⟨h2, h3⟩)
          · simp only [lGet, if_pos ht0] at h3 ⊢
            rw [List.getElem?_eraseIdx_of_lt _ _ _ (by omega)]
            exact h3
          · simp only [lGet, if_pos (by omega : (0:Int) ≤ t + 1), if_pos ht0] at h4 ⊢
            rw [List.getElem?_eraseIdx_of_ge _ _ _ (by omega)]
            rw [show t.toNat + 1 = (t + 1).toNat by omega]
            exact h4
          · exfalso
            obtain ⟨-, hb⟩ := lGet_some h3
            omega
        · intro hG
          obtain ⟨-, hb⟩ := lGet_some hG
          have hble : (((s o).inputs.eraseIdx jN).length : Int) ≤ ((s o).inputs.length : Int) - 1 := by
            rw [List.length_eraseIdx]
            simp only [if_pos hjlt]
            omega
          by_cases htj : t < (jN : Int)
          · refine Or.inl ⟨htj, ?_⟩
            simp only [lGet, if_pos ht0] at hG ⊢
            rwa [List.getElem?_eraseIdx_of_lt _ _ _ (by omega)] at hG
          · refine Or.inr (Or.inl ⟨by omega, by omega, ?_⟩)
            simp only [lGet, if_pos ht0, if_pos (by omega : (0:Int) ≤ t + 1)] at hG ⊢
            rw [List.getElem?_eraseIdx_of_ge _ _ _ (by omega)] at hG
            rwa [show t.toNat + 1 = (t + 1).toNat by omega] at hG
      · constructor
        · rintro (⟨-, h3⟩ | ⟨h2, -, -⟩ | ⟨h2, -⟩)
          · rw [lGet_neg (by omega)] at h3
            exact Option.noConfusion h3
          · omega
          · omega
        · intro hG
          rw [lGet_neg (by omega)] at hG
          exact Option.noConfusion hG
    · simp only [if_neg hq]
      rw [hmidf.1 q] at *
      exact hInv q m t

/-- Out-of-range `__delitem__` raises before any mutation. -/
theorem delItem_out {s : State} {o : NodeId} {i : Int} (hInv : Inv s)
    (h : i < -(((s o).inputs.length : Nat) : Int) ∨
      (((s o).inputs.length : Nat) : Int) ≤ i) :
    (delItem s o i).1 = s ∧ (delItem s o i).2 ≠ none := by
  rcases hpg : pyGet (s o).inputs (pyNorm (s o).inputs.length i) with - | old
  · constructor
    · simp [delItem, hpg]
    · simp [delItem, hpg]
  · have hjneg : pyNorm (s o).inputs.length i < 0 := by
      rcases h with h | h
      · simp only [pyNorm]
        rw [if_pos (by omega)]
        omega
      · exfalso
        have hj : pyNorm (s o).inputs.length i = i := by
          simp only [pyNorm]
          rw [if_neg (by omega)]
        rw [hj] at hpg
        simp only [pyGet, pyIndex, if_pos (by omega : (0:Int) ≤ i),
          if_neg (by omega : ¬ i < ((s o).inputs.length : Int))] at hpg
        exact Option.noConfusion hpg
    have hnm : (o, pyNorm (s o).inputs.length i) ∉ (s old).uses := by
      rw [hInv, lGet_neg hjneg]
      simp
    constructor
    · simp [delItem, hpg, usesErase_of_not_mem hnm]
    · simp [delItem, hpg, usesErase_of_not_mem hnm]

/-- `__delitem__` preserves the invariant for every index. -/
theorem delItem_inv {s : State} {o : NodeId} {i : Int} (hInv : Inv s) :
    Inv (delItem s o i).1 := by
  by_cases h : -(((s o).inputs.length : Nat) : Int) ≤ i ∧
      i < (((s o).inputs.length : Nat) : Int)
  · exact (delItem_ok hInv h.1 h.2).2.2
  · rw [(delItem_out hInv (by omega)).1]
    exact hInv

/-! ## `insert` specification -/

/-- Use-set contents mid-way through the `insert` re-keying loop:
positions `≥ p` have been re-keyed up by one, positions `< p` are
untouched. -/
def insSpecMem (s0 : State) (o : NodeId) (p : Nat) (q m : NodeId) (t : Int) : Prop :=
  if q = o then
    ((t < (p : Int) ∧ lGet ((s0 o).inputs) t = some m) ∨
     ((p : Int) < t ∧ lGet ((s0 o).inputs) (t - 1) = some m))
  else (q, t) ∈ (s0 m).uses

/-- Mid-loop state description for `insert`. -/
def InsMid (s0 : State) (o : NodeId) (p : Nat) (σ : State) : Prop :=
  (∀ r, (σ r).inputs = (s0 r).inputs) ∧
  (∀ q m t, ((q, t) ∈ (σ m).uses ↔ insSpecMem s0 o p q m t))

theorem insStep {s0 : State} {o : NodeId} {p : Nat} {σ : State} {e : NodeId}
    (hp : 1 ≤ p) (he : (s0 o).inputs[p - 1]? = some e) (hmid : InsMid s0 o p σ) :
    (o, (p : Int) - 1) ∈ (σ e).uses ∧
    InsMid s0 o (p - 1) (usesInsert (usesErased σ e (o, (p : Int) - 1)) e (o, (p : Int))) := by
  have hGp : lGet ((s0 o).inputs) ((p : Int) - 1) = some e := by
    rw [show (p : Int) - 1 = ((p - 1 : Nat) : Int) by omega, lGet_coe]
    exact he
  have hmem : (o, (p : Int) - 1) ∈ (σ e).uses := by
    rw [hmid.2 o e ((p : Int) - 1)]
    simp only [insSpecMem, if_pos rfl]
    exact Or.inl ⟨by omega, hGp⟩
  refine ⟨hmem, ?_, ?_⟩
  · intro r
    simp only [usesInsert_inputs, usesErased_inputs]
    exact hmid.1 r
  · intro q m t
    rw [mem_usesInsert_pair, mem_usesErased_pair, hmid.2 q m t]
    simp only [insSpecMem]
    by_cases hq : q = o
    · simp only [if_pos hq]
      have hcast : ((p - 1 : Nat) : Int) = (p : Int) - 1 := by omega
      rw [hcast]
      constructor
      · rintro (⟨hme, -, htp⟩ | ⟨hspec, hcond⟩)
        · refine Or.inr ⟨by omega, ?_⟩
          rw [htp, hme]
          exact hGp
        · rcases hspec with ⟨h1, h2⟩ | ⟨h1, h2⟩
          · by_cases htp : t = (p : Int) - 1
            · exfalso
              rw [htp, hGp] at h2
              exact (hcond (Option.some.inj h2).symm) ⟨hq, htp⟩
            · exact Or.inl ⟨by omega, h2⟩
          · exact Or.inr ⟨by omega, h2⟩
      · rintro (⟨h1, h2⟩ | ⟨h1, h2⟩)
        · exact Or.inr ⟨Or.inl ⟨by omega, h2⟩, fun _ hpr => by omega⟩
        · by_cases htp : t = (p : Int)
          · rw [htp] at h2
            exact Or.inl ⟨Option.some.inj (h2.symm.trans hGp), hq, htp⟩
          · exact Or.inr ⟨Or.inr ⟨by omega, h2⟩, fun _ hpr => by omega⟩
    · simp only [if_neg hq]
      constructor
      · rintro (⟨-, hqo, -⟩ | ⟨hmem2, -⟩)
        · exact absurd hqo hq
        · exact hmem2
      · intro hr
        exact Or.inr ⟨hr, fun _ hpr => absurd hpr.1 hq⟩

theorem insShiftLoop_go {s0 : State} {o : NodeId} {j : Nat} :
    ∀ (fuel p : Nat) (σ : State), j + fuel = p → p ≤ (s0 o).inputs.length →
      InsMid s0 o p σ →
      (insShiftLoop o σ ((((s0 o).inputs.take p).drop j).reverse) ((p : Int) - 1)).2 = none ∧
      InsMid s0 o j
        ((insShiftLoop o σ ((((s0 o).inputs.take p).drop j).reverse) ((p : Int) - 1)).1)
  | 0, p, σ, hfuel, hple, hmid => by
    have hp : p = j := by omega
    subst hp
    rw [List.drop_take, Nat.sub_self, List.take_zero, List.reverse_nil]
    exact ⟨rfl, hmid⟩
  | fuel + 1, p, σ, hfuel, hple, hmid => by
    obtain ⟨p2, rfl⟩ : ∃ p2, p = p2 + 1 := ⟨p - 1, by omega⟩
    have hplt : p2 < (s0 o).inputs.length := by omega
    have he : (s0 o).inputs[p2]? = some ((s0 o).inputs.get ⟨p2, hplt⟩) :=
      List.getElem?_eq_getElem hplt
    have hstep := @insStep s0 o (p2 + 1) σ ((s0 o).inputs.get ⟨p2, hplt⟩) (by omega) he hmid
    have htake : (s0 o).inputs.take (p2 + 1) =
        (s0 o).inputs.take p2 ++ [(s0 o).inputs.get ⟨p2, hplt⟩] := by
      rw [List.take_succ, he]
      rfl
    have hjlen : j ≤ ((s0 o).inputs.take p2).length := by
      rw [List.length_take]
      omega
    have hdecomp : (((s0 o).inputs.take (p2 + 1)).drop j).reverse =
        ((s0 o).inputs.get ⟨p2, hplt⟩) :: (((s0 o).inputs.take p2).drop j).reverse := by
      rw [htake, List.drop_append_of_le_length hjlen, List.reverse_append]
      rfl
    rw [hdecomp, insShiftLoop]
    rw [show ((p2 + 1 : Nat) : Int) - 1 + 1 = ((p2 + 1 : Nat) : Int) by omega]
    rw [usesErase_of_mem hstep.1]
    have hrec := @insShiftLoop_go s0 o j fuel p2
      (usesInsert (usesErased σ ((s0 o).inputs.get ⟨p2, hplt⟩) (o, ((p2 + 1 : Nat) : Int) - 1))
        ((s0 o).inputs.get ⟨p2, hplt⟩) (o, ((p2 + 1 : Nat) : Int)))
      (by omega) (by omega) (by simpa using hstep.2)
    have hc : ((p2 : Nat) : Int) - 1 = ((p2 + 1 : Nat) : Int) - 1 - 1 := by omega
    rw [hc] at hrec
    exact hrec

/-- Successful `insert` (index within `[-n, n]`, consistent state):
elements at and above the insertion point are re-keyed up by one, the
fresh edge is recorded, and the invariant is preserved. -/
theorem insertItem_ok {s : State} {o : NodeId} {i : Int} (v : NodeId) (hInv : Inv s)
    (h0 : -(((s o).inputs.length : Nat) : Int) ≤ i)
    (h1 : i ≤ (((s o).inputs.length : Nat) : Int)) :
    (insertItem s o i v).2 = none ∧
    (∀ k, ((insertItem s o i v).1 k).inputs =
      if k = o then
        (s o).inputs.take (pyNorm (s o).inputs.length i).toNat ++
          v :: (s o).inputs.drop (pyNorm (s o).inputs.length i).toNat
      else (s k).inputs) ∧
    Inv (insertItem s o i v).1 := by
  set jI := pyNorm (s o).inputs.length i with hjIdef
  have hjb : 0 ≤ jI ∧ jI ≤ ((s o).inputs.length : Int) := by
    rw [hjIdef]
    unfold pyNorm
    split <;> omega
  obtain ⟨hj0, hj1⟩ := hjb
  set jN := jI.toNat with hjNdef
  have hjN : (jN : Int) = jI := Int.toNat_of_nonneg hj0
  have hjle : jN ≤ (s o).inputs.length := by omega
  have hmid0 : InsMid s o ((s o).inputs.length) s := by
    constructor
    · intro r
      rfl
    · intro q m t
      simp only [insSpecMem]
      by_cases hq : q = o
      · simp only [if_pos hq]
        rw [hq, hInv o m t]
        constructor
        · intro hG
          obtain ⟨h2, h3⟩ := lGet_some hG
          exact Or.inl ⟨h3, hG⟩
        · rintro (⟨-, h2⟩ | ⟨h2, h3⟩)
          · exact h2
          · exfalso
            obtain ⟨-, hb⟩ := lGet_some h3
            omega
      · simp only [if_neg hq]
  have hdrop : pyDropFrom ((s o).inputs) jI = (s o).inputs.drop jN := by
    simp only [pyDropFrom, if_pos hj0]
  have hloop := @insShiftLoop_go s o jN ((s o).inputs.length - jN) ((s o).inputs.length) s
    (by omega) (le_refl _) hmid0
  rw [List.take_length] at hloop
  rcases hloopEq : insShiftLoop o s (((s o).inputs.drop jN).reverse)
      (((s o).inputs.length : Int) - 1) with ⟨σf, ef⟩
  rw [hloopEq] at hloop
  obtain ⟨hef, hmidf⟩ := hloop
  simp only at hef
  subst hef
  have hmidf2 : InsMid s o jN σf := hmidf
  have hins : pyInsertAt (((usesInsert σf v (o, jI)) o).inputs) jI v =
      (s o).inputs.take jN ++ v :: (s o).inputs.drop jN := by
    simp only [pyInsertAt, usesInsert_inputs, hmidf2.1 o, if_pos hj0, ← hjNdef,
      Nat.min_eq_left hjle]
  have heq : insertItem s o i v =
      (setInputsList (usesInsert σf v (o, jI)) o
        ((s o).inputs.take jN ++ v :: (s o).inputs.drop jN), none) := by
    simp only [insertItem, ← hjIdef, hdrop, hloopEq, hins]
  refine ⟨by rw [heq], ?_, ?_⟩
  · intro k
    rw [heq]
    simp only [setInputsList_inputs, usesInsert_inputs]
    split
    · rfl
    · exact hmidf2.1 k
  · intro q m t
    rw [heq]
    simp only [setInputsList_uses, setInputsList_inputs]
    rw [mem_usesInsert_pair, hmidf2.2 q m t]
    simp only [insSpecMem]
    by_cases hq : q = o
    · simp only [if_pos hq]
      by_cases ht0 : 0 ≤ t
      · by_cases htj : t = jI
        · constructor
          · rintro (⟨hm, -, -⟩ | h)
            · rw [htj, hm]
              simp only [lGet, if_pos hj0, ← hjNdef]
              exact getElem?_insertShape_self v hjle
            · exfalso
              rcases h with ⟨h2, -⟩ | ⟨h2, -⟩ <;> omega
          · intro hG
            rw [htj] at hG
            simp only [lGet, if_pos hj0, ← hjNdef] at hG
            rw [getElem?_insertShape_self v hjle] at hG
            exact Or.inl ⟨(Option.some.inj hG).symm, hq, htj⟩
        · constructor
          · rintro (⟨-, -, htI⟩ | h)
            · exact absurd htI htj
            · rcases h with ⟨h2, h3⟩ | ⟨h2, h3⟩
              · simp only [lGet, if_pos ht0] at h3 ⊢
                rw [getElem?_insertShape_lt v hjle (by omega)]
                exact h3
              · simp only [lGet, if_pos (by omega : (0:Int) ≤ t - 1), if_pos ht0] at h3 ⊢
                rw [getElem?_insertShape_gt v hjle (by omega)]
                rw [show t.toNat - 1 = (t - 1).toNat by omega]
                exact h3
          · intro hG
            refine Or.inr ?_
            by_cases htlt : t < jI
            · refine Or.inl ⟨by omega, ?_⟩
              simp only [lGet, if_pos ht0] at hG ⊢
              rwa [getElem?_insertShape_lt v hjle (by omega)] at hG
            · refine Or.inr ⟨by omega, ?_⟩
              simp only [lGet, if_pos ht0, if_pos (by omega : (0:Int) ≤ t - 1)] at hG ⊢
              rw [getElem?_insertShape_gt v hjle (by omega)] at hG
              rwa [show t.toNat - 1 = (t - 1).toNat by omega] at hG
      · constructor
        · rintro (⟨-, -, htI⟩ | h)
          · omega
          · rcases h with ⟨-, h3⟩ | ⟨h2, -⟩
            · rw [lGet_neg (by omega)] at h3
              exact Option.noConfusion h3
            · omega
        · intro hG
          rw [lGet_neg (by omega)] at hG
          exact Option.noConfusion hG
    · simp only [if_neg hq]
      rw [show ((usesInsert σf v (o, jI)) q).inputs = (s q).inputs from by
        rw [usesInsert_inputs]; exact hmidf2.1 q]
      rw [← hInv q m t]
      constructor
      · rintro (⟨-, hqo, -⟩ | h)
        · exact absurd hqo hq
        · exact h
      · intro hr
        exact Or.inr hr

/-! ## `append` / `extend` specification -/

theorem appendItem_eq (s : State) (o : NodeId) (v : NodeId) :
    appendItem s o v =
      (setInputsList (usesInsert s v (o, ((s o).inputs.length : Int))) o
        ((s o).inputs ++ [v]), none) := by
  unfold appendItem insertItem
  simp only [pyNorm, if_neg (by omega : ¬ (((s o).inputs.length : Nat) : Int) < 0)]
  simp only [pyDropFrom, if_pos (by omega : (0:Int) ≤ ((s o).inputs.length : Int)),
    Int.toNat_natCast, List.drop_length, List.reverse_nil]
  simp only [insShiftLoop]
  simp only [pyInsertAt, if_pos (by omega : (0:Int) ≤ ((s o).inputs.length : Int)),
    Int.toNat_natCast, usesInsert_inputs, min_self, List.take_length, List.drop_length]

theorem extendNode_spec (o : NodeId) : ∀ (xs : List NodeId) (s : State),
    (extendNode s o xs).2 = none ∧
    (∀ k, ((extendNode s o xs).1 k).inputs =
      if k = o then (s o).inputs ++ xs else (s k).inputs) ∧
    (∀ k, ((extendNode s o xs).1 k).value = (s k).value) ∧
    (∀ k, ((extendNode s o xs).1 k).graph = (s k).graph) ∧
    (∀ q m t, (q, t) ∈ ((extendNode s o xs).1 m).uses ↔
      ((q, t) ∈ (s m).uses ∨
        (q = o ∧ ∃ kk : Nat, t = ((s o).inputs.length : Int) + (kk : Int) ∧ xs[kk]? = some m)))
  | [], s => by
    refine ⟨rfl, ?_, fun k => rfl, fun k => rfl, ?_⟩
    · intro k
      split
      · next h =>
        rw [h, List.append_nil]
        rfl
      · rfl
    · intro q m t
      constructor
      · intro h
        exact Or.inl h
      · rintro (h | ⟨-, kk, -, hk⟩)
        · exact h
        · exact absurd hk (by simp)
  | x :: xs, s => by
    rw [show extendNode s o (x :: xs) =
        extendNode (setInputsList (usesInsert s x (o, ((s o).inputs.length : Int))) o
          ((s o).inputs ++ [x])) o xs from by
      show (match appendItem s o x with
        | (s1, some e) => (s1, some e)
        | (s1, none) => extendNode s1 o xs) = _
      rw [appendItem_eq]]
    obtain ⟨ih1, ih2, ih3, ih4, ih5⟩ := extendNode_spec o xs
      (setInputsList (usesInsert s x (o, ((s o).inputs.length : Int))) o ((s o).inputs ++ [x]))
    refine ⟨ih1, ?_, ?_, ?_, ?_⟩
    · intro k
      rw [ih2 k]
      by_cases h : k = o
      · subst h
        rw [if_pos rfl, if_pos rfl, setInputsList_inputs_self, List.append_assoc]
        rfl
      · rw [if_neg h, if_neg h, setInputsList_inputs_ne _ _ _ h, usesInsert_inputs]
    · intro k
      rw [ih3 k]
      simp only [setInputsList_value, usesInsert_value]
    · intro k
      rw [ih4 k]
      simp only [setInputsList_graph, usesInsert_graph]
    · intro q m t
      have hlen1 : ((setInputsList (usesInsert s x (o, ((s o).inputs.length : Int))) o
          ((s o).inputs ++ [x])) o).inputs.length = (s o).inputs.length + 1 := by
        rw [setInputsList_inputs_self]
        simp
      rw [ih5 q m t, hlen1]
      simp only [setInputsList_uses]
      rw [mem_usesInsert_pair]
      constructor
      · rintro ((⟨hm, hq, ht⟩ | h) | ⟨hq, kk, ht, hk⟩)
        · refine Or.inr ⟨hq, 0, by omega, ?_⟩
          rw [hm]
          simp
        · exact Or.inl h
        · refine Or.inr ⟨hq, kk + 1, by push_cast; omega, ?_⟩
          rw [List.getElem?_cons_succ]
          exact hk
      · rintro (h | ⟨hq, kk, ht, hk⟩)
        · exact Or.inl (Or.inr h)
        · match kk, ht, hk with
          | 0, ht, hk =>
            refine Or.inl (Or.inl ⟨?_, hq, by omega⟩)
            simpa using hk.symm
          | kk + 1, ht, hk =>
            refine Or.inr ⟨hq, kk, by push_cast at ht ⊢; omega, ?_⟩
            simpa using hk

/-! ## `clear` specification -/

theorem clearFuel_spec : ∀ (n : Nat) (s : State) (o : NodeId), Inv s →
    (s o).inputs.length = n →
    (clearFuel o s n).2 = none ∧
    (∀ k, ((clearFuel o s n).1 k).inputs = if k = o then [] else (s k).inputs) ∧
    Inv (clearFuel o s n).1
  | 0, s, o, hInv, hlen => by
    refine ⟨rfl, ?_, hInv⟩
    intro k
    split
    · next h =>
      rw [h]
      exact List.eq_nil_of_length_eq_zero hlen
    · rfl
  | n + 1, s, o, hInv, hlen => by
    have hne : ¬ (s o).inputs.isEmpty = true := by
      rw [List.isEmpty_iff]
      intro h
      rw [h] at hlen
      simp at hlen
    have hdel := @delItem_ok s o (-1) hInv (by omega) (by omega)
    have hnorm : pyNorm (s o).inputs.length (-1) = ((n : Nat) : Int) := by
      simp only [pyNorm, if_pos (by omega : (-1 : Int) < 0)]
      omega
    rcases hd : delItem s o (-1) with ⟨s1, e1⟩
    rw [hd] at hdel
    obtain ⟨he1, hinp1, hinv1⟩ := hdel
    simp only at he1
    subst he1
    have hinp2 : ∀ k, (s1 k).inputs =
        if k = o then (s o).inputs.eraseIdx n else (s k).inputs := by
      intro k
      have := hinp1 k
      rwa [hnorm, Int.toNat_natCast] at this
    have hlen1 : (s1 o).inputs.length = n := by
      rw [hinp2 o, if_pos rfl, List.length_eraseIdx]
      rw [if_pos (by omega)]
      omega
    have hinv1b : Inv s1 := hinv1
    obtain ⟨ihe, ihinp, ihinv⟩ := clearFuel_spec n s1 o hinv1b hlen1
    have hstep : clearFuel o s (n + 1) = clearFuel o s1 n := by
      show (if (s o).inputs.isEmpty = true then (s, none)
        else match delItem s o (-1) with
          | (s2, some e) => (s2, some e)
          | (s2, none) => clearFuel o s2 n) = clearFuel o s1 n
      rw [if_neg hne, hd]
    rw [hstep]
    refine ⟨ihe, ?_, ihinv⟩
    intro k
    rw [ihinp k]
    split
    · rfl
    · next h => rw [hinp2 k, if_neg h]

/-- `clear` on a consistent state: always succeeds, empties the input
list, leaves every other node's inputs alone, preserves the invariant,
and removes exactly the reverse edges whose user is the owner. -/
theorem clearNode_spec {s : State} {o : NodeId} (hInv : Inv s) :
    (clearNode s o).2 = none ∧
    (∀ k, ((clearNode s o).1 k).inputs = if k = o then [] else (s k).inputs) ∧
    Inv (clearNode s o).1 ∧
    (∀ q m t, ((q, t) ∈ ((clearNode s o).1 m).uses ↔ ((q, t) ∈ (s m).uses ∧ q ≠ o))) := by
  obtain ⟨h1, h2, h3⟩ := clearFuel_spec ((s o).inputs.length) s o hInv rfl
  unfold clearNode
  refine ⟨h1, h2, h3, ?_⟩
  intro q m t
  rw [h3 q m t]
  by_cases hq : q = o
  · rw [hq]
    rw [show ((clearFuel o s ((s o).inputs.length)).1 o).inputs = [] from by
      rw [h2 o, if_pos rfl]]
    simp only [lGet]
    constructor
    · intro h
      split at h <;> exact Option.noConfusion h
    · rintro ⟨-, h⟩
      exact absurd rfl h
  · rw [show ((clearFuel o s ((s o).inputs.length)).1 q).inputs = (s q).inputs from by
      rw [h2 q, if_neg hq]]
    rw [← hInv q m t]
    constructor
    · intro h
      exact ⟨h, hq⟩
    · exact fun h => h.1

/-- `clear` on an already-empty input list is exactly a no-op. -/
theorem clearNode_empty {s : State} {o : NodeId} (h : (s o).inputs = []) :
    clearNode s o = (s, none) := by
  unfold clearNode
  rw [h]
  rfl

/-! ## Invariant preservation for construction and `replace` -/

theorem inv_congr {s s2 : State} (hi : ∀ k, (s2 k).inputs = (s k).inputs)
    (hu : ∀ k, (s2 k).uses = (s k).uses) (h : Inv s) : Inv s2 := by
  intro q m t
  rw [hu m, hi q]
  exact h q m t

theorem extendNode_inv {s : State} {o : NodeId} (xs : List NodeId)
    (hInv : Inv s) : Inv (extendNode s o xs).1 := by
  obtain ⟨-, h2, -, -, h5⟩ := extendNode_spec o xs s
  intro q m t
  rw [h5 q m t, h2 q]
  by_cases hq : q = o
  · rw [if_pos hq, hq]
    constructor
    · rintro (hmem | ⟨-, kk, ht, hk⟩)
      · have hG := (hInv o m t).mp (hq ▸ hmem)
        obtain ⟨ht0, htl⟩ := lGet_some hG
        simp only [lGet, if_pos ht0] at hG ⊢
        rw [List.getElem?_append, if_pos (by omega)]
        exact hG
      · have ht0 : 0 ≤ t := by omega
        simp only [lGet, if_pos ht0]
        rw [List.getElem?_append, if_neg (by omega : ¬ t.toNat < (s o).inputs.length)]
        rw [show t.toNat - (s o).inputs.length = kk by omega]
        exact hk
    · intro hG
      obtain ⟨ht0, -⟩ := lGet_some hG
      simp only [lGet, if_pos ht0] at hG
      rw [List.getElem?_append] at hG
      by_cases htl : t.toNat < (s o).inputs.length
      · rw [if_pos htl] at hG
        refine Or.inl ?_
        have : lGet ((s o).inputs) t = some m := by
          simp only [lGet, if_pos ht0]
          exact hG
        exact hq ▸ ((hInv o m t).mpr (hq ▸ this))
      · rw [if_neg htl] at hG
        exact Or.inr ⟨rfl, t.toNat - (s o).inputs.length, by omega, hG⟩
  · rw [if_neg hq]
    constructor
    · rintro (hmem | ⟨hqo, -⟩)
      · exact (hInv q m t).mp hmem
      · exact absurd hqo hq
    · intro hG
      exact Or.inl ((hInv q m t).mpr hG)

/-- Shape facts about `ANFNode.__init__`: the fresh record carries the
given value and graph, and its input list is exactly the given list
(unconditionally). -/
theorem mkNode_spec (s : State) (nid : NodeId) (xs : List NodeId) (v : Value)
    (g : Option Nat) :
    (mkNode s nid xs v g).2 = none ∧
    ((mkNode s nid xs v g).1 nid).inputs = xs ∧
    ((mkNode s nid xs v g).1 nid).value = v ∧
    ((mkNode s nid xs v g).1 nid).graph = g := by
  obtain ⟨h1, h2, h3, h4, -⟩ := extendNode_spec nid xs (upd s nid ⟨[], ∅, v, g⟩)
  refine ⟨h1, ?_, ?_, ?_⟩
  · rw [show mkNode s nid xs v g = extendNode (upd s nid ⟨[], ∅, v, g⟩) nid xs from rfl]
    rw [h2 nid, if_pos rfl, upd_same]
    exact List.nil_append xs
  · rw [show mkNode s nid xs v g = extendNode (upd s nid ⟨[], ∅, v, g⟩) nid xs from rfl]
    rw [h3 nid, upd_same]
  · rw [show mkNode s nid xs v g = extendNode (upd s nid ⟨[], ∅, v, g⟩) nid xs from rfl]
    rw [h4 nid, upd_same]

theorem mkNode_inv {s : State} {nid : NodeId} {xs : List NodeId} {v : Value}
    {g : Option Nat} (hInv : Inv s) (hfresh : s nid = defaultNode) :
    Inv (mkNode s nid xs v g).1 := by
  apply extendNode_inv
  refine inv_congr ?_ ?_ hInv
  · intro k
    rw [upd_apply]
    split
    · next h =>
      rw [h, hfresh]
      rfl
    · rfl
  · intro k
    rw [upd_apply]
    split
    · next h =>
      rw [h, hfresh]
      rfl
    · rfl

theorem replFinish_inv {s : State} {b : NodeId} {pick : Option (NodeId × Int)}
    (hInv : Inv s) : Inv (replFinish s b pick).1 := by
  rcases pick with - | ⟨nn, ii⟩
  · exact hInv
  · show Inv (match setItem s nn ii b with
      | (s1, some e) => (s1, some e)
      | (s1, none) => (s1, some .runtimeError)).1
    rcases hs : setItem s nn ii b with ⟨s1, e1⟩
    have : Inv s1 := by
      have := @setItem_inv s nn ii b hInv
      rwa [hs] at this
    rcases e1 with - | e1
    · exact this
    · exact this

theorem replacePhases_inv {s : State} {a b : NodeId} (hInv : Inv s) :
    Inv (replacePhases s a b).1 := by
  unfold replacePhases
  split
  · next s1 e h1 =>
    have := (@clearNode_spec s b hInv).2.2.1
    rw [h1] at this
    exact this
  · next s1 h1 =>
    have hinv1 : Inv s1 := by
      have := (@clearNode_spec s b hInv).2.2.1
      rwa [h1] at this
    split
    · next s2 e h2 =>
      have := @extendNode_inv s1 b ((s1 a).inputs) hinv1
      rw [h2] at this
      exact this
    · next s2 h2 =>
      have hinv2 : Inv s2 := by
        have := @extendNode_inv s1 b ((s1 a).inputs) hinv1
        rwa [h2] at this
      exact (@clearNode_spec s2 a hinv2).2.2.1

theorem replaceNode_inv {s : State} {a b : NodeId} (hInv : Inv s) :
    Inv (replaceNode s a b).1 := by
  unfold replaceNode
  split
  · next s1 e hp =>
    have := @replacePhases_inv s a b hInv
    rw [hp] at this
    exact this
  · next s1 hp =>
    have hinv1 : Inv s1 := by
      have := @replacePhases_inv s a b hInv
      rwa [hp] at this
    exact replFinish_inv hinv1

/-! ## Invariant preservation along operation sequences -/

theorem inv_emptyState : Inv emptyState := by
  intro q m t
  constructor
  · intro h
    exact absurd h (by simp [emptyState, defaultNode])
  · intro h
    rw [show (emptyState q).inputs = [] from rfl] at h
    simp [lGet] at h

theorem runOp_inv {s : State} {op : Op} (hInv : Inv s) (hg : goodOp s op = true) :
    Inv (runOp s op).1 := by
  cases op with
  | mk nid inputs v g =>
    simp only [goodOp, Bool.and_eq_true, decide_eq_true_eq] at hg
    exact mkNode_inv hInv hg.1
  | ins o i v =>
    simp only [goodOp, decide_eq_true_eq] at hg
    exact (insertItem_ok v hInv hg.1 hg.2).2.2
  | del o i => exact delItem_inv hInv
  | set o i v => exact setItem_inv v hInv
  | setSlice o lo hi v => exact hInv
  | delSlice o lo hi => exact hInv
  | clr o => exact (clearNode_spec hInv).2.2.1
  | repl a b => exact replaceNode_inv hInv

theorem runOps_inv : ∀ (ops : List Op) (s : State), Inv s → goodSeq s ops = true →
    Inv (runOps s ops)
  | [], s, hInv, _ => hInv
  | op :: rest, s, hInv, hg => by
    have hg2 : goodOp s op = true ∧
        (match runOp s op with
         | (s1, none) => goodSeq s1 rest
         | (_, some _) => true) = true := by
      rw [← Bool.and_eq_true]
      exact hg
    have hinv1 : Inv (runOp s op).1 := runOp_inv hInv hg2.1
    rcases hr : runOp s op with ⟨s1, e1⟩
    rw [hr] at hinv1
    rcases e1 with - | e1
    · have hrest : goodSeq s1 rest = true := by
        have := hg2.2
        rwa [hr] at this
      show Inv (runOps s (op :: rest))
      rw [show runOps s (op :: rest) = runOps s1 rest from by
        show (match runOp s op with
          | (s2, none) => runOps s2 rest
          | (s2, some _) => s2) = runOps s1 rest
        rw [hr]]
      exact runOps_inv rest s1 hinv1 hrest
    · show Inv (runOps s (op :: rest))
      rw [show runOps s (op :: rest) = s1 from by
        show (match runOp s op with
          | (s2, none) => runOps s2 rest
          | (s2, some _) => s2) = s1
        rw [hr]]
      exact hinv1

/-- The bidirectionality invariant holds after every well-posed
sequence of operations run from the empty state. -/
theorem invAfterOps (ops : List Op) (h : goodSeq emptyState ops = true) :
    Inv (runOps emptyState ops) :=
  runOps_inv ops emptyState inv_emptyState h

/-! ## `replace` on a node with no uses -/

theorem pickOfUses_empty : pickOfUses (∅ : Finset (NodeId × Int)) = none := by
  simp [pickOfUses]

/-- `A.replace(B)` for distinct nodes when `A.uses` is empty: the
use-set iteration is vacuous, so the operation succeeds, `B` takes
over `A`'s former input list, and `A` is left with no inputs. -/
theorem replace_no_uses {s : State} {a b : NodeId} (hInv : Inv s) (hab : a ≠ b)
    (hu : (s a).uses = ∅) :
    (replaceNode s a b).2 = none ∧
    ((replaceNode s a b).1 b).inputs = (s a).inputs ∧
    ((replaceNode s a b).1 a).inputs = [] ∧
    (∀ k, k ≠ a → k ≠ b → ((replaceNode s a b).1 k).inputs = (s k).inputs) ∧
    Inv (replaceNode s a b).1 := by
  obtain ⟨hc1e, hc1i, hc1inv, hc1u⟩ := @clearNode_spec s b hInv
  rcases hc1 : clearNode s b with ⟨s1, e1⟩
  rw [hc1] at hc1e hc1i hc1inv hc1u
  simp only at hc1e
  subst hc1e
  have hc1i2 : ∀ k, (s1 k).inputs = if k = b then [] else (s k).inputs := hc1i
  have hc1inv2 : Inv s1 := hc1inv
  have hc1u2 : ∀ q m t, ((q, t) ∈ (s1 m).uses ↔ ((q, t) ∈ (s m).uses ∧ q ≠ b)) := hc1u
  have ha1 : (s1 a).inputs = (s a).inputs := by
    rw [hc1i2 a, if_neg hab]
  have hb1 : (s1 b).inputs = [] := by
    rw [hc1i2 b, if_pos rfl]
  obtain ⟨he2, hi2, hv2, hg2, hu2⟩ := extendNode_spec b ((s1 a).inputs) s1
  rcases hext : extendNode s1 b ((s1 a).inputs) with ⟨s2, e2⟩
  rw [hext] at he2 hi2 hv2 hg2 hu2
  simp only at he2
  subst he2
  have hi22 : ∀ k, (s2 k).inputs =
      if k = b then (s1 b).inputs ++ (s1 a).inputs else (s1 k).inputs := hi2
  have hu22 : ∀ q m t, ((q, t) ∈ (s2 m).uses ↔
      ((q, t) ∈ (s1 m).uses ∨
        (q = b ∧ ∃ kk : Nat, t = ((s1 b).inputs.length : Int) + (kk : Int) ∧
          (s1 a).inputs[kk]? = some m))) := hu2
  have hinv2 : Inv s2 := by
    have := @extendNode_inv s1 b ((s1 a).inputs) hc1inv2
    rwa [hext] at this
  have hb2 : (s2 b).inputs = (s a).inputs := by
    rw [hi22 b, if_pos rfl, hb1, ha1, List.nil_append]
  have ha2 : (s2 a).inputs = (s a).inputs := by
    rw [hi22 a, if_neg hab, ha1]
  have husesa2 : (s2 a).uses = ∅ := by
    rw [Finset.eq_empty_iff_forall_not_mem]
    rintro ⟨q, t⟩ hx
    rw [hu22 q a t] at hx
    rcases hx with hx | ⟨hq, kk, ht, hk⟩
    · rw [hc1u2 q a t] at hx
      rw [hu] at hx
      exact absurd hx.1 (by simp)
    · rw [ha1] at hk
      have : (a, (kk : Int)) ∈ (s a).uses := by
        rw [hInv a a (kk : Int), lGet_coe]
        exact hk
      rw [hu] at this
      exact absurd this (by simp)
  obtain ⟨hc3e, hc3i, hc3inv, hc3u⟩ := @clearNode_spec s2 a hinv2
  rcases hc3 : clearNode s2 a with ⟨s3, e3⟩
  rw [hc3] at hc3e hc3i hc3inv hc3u
  simp only at hc3e
  subst hc3e
  have hc3i2 : ∀ k, (s3 k).inputs = if k = a then [] else (s2 k).inputs := hc3i
  have hc3inv2 : Inv s3 := hc3inv
  have hc3u2 : ∀ q m t, ((q, t) ∈ (s3 m).uses ↔ ((q, t) ∈ (s2 m).uses ∧ q ≠ a)) := hc3u
  have ha3 : (s3 a).inputs = [] := by
    rw [hc3i2 a, if_pos rfl]
  have hb3 : (s3 b).inputs = (s a).inputs := by
    rw [hc3i2 b, if_neg (fun h => hab h.symm), hb2]
  have husesa3 : (s3 a).uses = ∅ := by
    rw [Finset.eq_empty_iff_forall_not_mem]
    rintro ⟨q, t⟩ hx
    rw [hc3u2 q a t] at hx
    rw [husesa2] at hx
    exact absurd hx.1 (by simp)
  have hphases : replacePhases s a b = (s3, none) := by
    simp only [replacePhases, hc1, hext, hc3]
  have hpick : pickOfUses ((s3 a).uses) = none := by
    rw [husesa3]
    exact pickOfUses_empty
  have hrepl : replaceNode s a b = (s3, none) := by
    simp only [replaceNode, hphases, hpick, replFinish]
  rw [hrepl]
  refine ⟨rfl, hb3, ha3, ?_, hc3inv2⟩
  intro k hka hkb
  rw [hc3i2 k, if_neg hka, hi22 k, if_neg hkb, hc1i2 k, if_neg hkb]

/-! # Claim theorems -/

/-- C4: `__setitem__` and `__delitem__` with a slice index fail fast
with the unsupported-operation error (`ValueError`, the class the
source designates for unsupported slice operations), making no change
to the input list or to any node's use-set: the returned state is the
input state itself. -/
theorem c4_slice_fail_fast (s : State) (o : NodeId) (lo hi : Option Int)
    (v : NodeId) :
    setItemIdx s o (.slice lo hi) v = (s, some .valueError) ∧
    delItemIdx s o (.slice lo hi) = (s, some .valueError) :=
  ⟨rfl, rfl⟩

/-- C6: `Parameter` constructors build a node with zero inputs, the
reserved `PARAMETER` value, and the given graph; `Return` constructors
build a node with exactly the one given input and the reserved
`RETURN` value; `Constant` constructors build a node with zero inputs
and no owning graph. -/
theorem c6_variant_shape (s : State) (nid : NodeId) (g : Nat) (inp : NodeId)
    (v : Value) :
    ((mkParameter s nid g).1 nid).inputs = [] ∧
    ((mkParameter s nid g).1 nid).value = .parameterTag ∧
    ((mkParameter s nid g).1 nid).graph = some g ∧
    ((mkReturn s nid inp g).1 nid).inputs = [inp] ∧
    ((mkReturn s nid inp g).1 nid).value = .returnTag ∧
    ((mkReturn s nid inp g).1 nid).graph = some g ∧
    ((mkConstant s nid v).1 nid).inputs = [] ∧
    ((mkConstant s nid v).1 nid).value = v ∧
    ((mkConstant s nid v).1 nid).graph = none := by
  obtain ⟨-, p2, p3, p4⟩ := mkNode_spec s nid [] .parameterTag (some g)
  obtain ⟨-, r2, r3, r4⟩ := mkNode_spec s nid [inp] .returnTag (some g)
  obtain ⟨-, c2, c3, c4⟩ := mkNode_spec s nid [] v none
  exact ⟨p2, p3, p4, r2, r3, r4, c2, c3, c4⟩

/-- C7 (amended): `outgoing` yields the user component of every
use-pair once per pair: a node appears in the iteration as many times
as it has indices referencing the node (so distinct users all appear,
but a multi-index user appears once per index, not exactly once). -/
theorem c7_outgoing_multiplicity (s : State) (n u : NodeId) :
    Multiset.count u (outgoing s n) =
      ((s n).uses.filter (fun p => p.1 = u)).card := by
  unfold outgoing
  rw [Multiset.count_map, Finset.card_def, Finset.filter_val]
  congr 1
  apply Multiset.filter_congr
  intro a ha
  exact eq_comm

/-- C8: `__getitem__` returns the node at a non-negative in-range
position, counts negative indices from the end (`get(-k)` is the
element at `n-k`), raises `IndexError` outside `[-n, n-1]`, and — its
type being a pure read — changes no state. -/
theorem c8_getitem (s : State) (o : NodeId) :
    (∀ i : Int, 0 ≤ i → i < (((s o).inputs.length : Nat) : Int) →
      ∃ w, (s o).inputs[i.toNat]? = some w ∧ getItem s o i = .ok w) ∧
    (∀ i : Int, -(((s o).inputs.length : Nat) : Int) ≤ i → i < 0 →
      ∃ w, (s o).inputs[(i + ((s o).inputs.length : Nat)).toNat]? = some w ∧
        getItem s o i = .ok w) ∧
    (∀ i : Int, (i < -(((s o).inputs.length : Nat) : Int) ∨
        (((s o).inputs.length : Nat) : Int) ≤ i) →
      getItem s o i = .error .indexError) := by
  refine ⟨?_, ?_, ?_⟩
  · intro i h0 h1
    have hlt : i.toNat < (s o).inputs.length := by omega
    refine ⟨(s o).inputs.get ⟨i.toNat, hlt⟩, List.getElem?_eq_getElem hlt, ?_⟩
    simp only [getItem, pyGet, pyIndex, if_pos h0, if_pos h1, Option.some_bind]
    rw [List.getElem?_eq_getElem hlt]
    rfl
  · intro i h0 h1
    have hlt : (i + ((s o).inputs.length : Nat)).toNat < (s o).inputs.length := by omega
    refine ⟨(s o).inputs.get ⟨(i + ((s o).inputs.length : Nat)).toNat, hlt⟩,
      List.getElem?_eq_getElem hlt, ?_⟩
    simp only [getItem, pyGet, pyIndex, if_neg (by omega : ¬ (0:Int) ≤ i),
      if_pos (by omega : (0:Int) ≤ i + ((s o).inputs.length : Nat)), Option.some_bind]
    rw [List.getElem?_eq_getElem hlt]
    rfl
  · intro i h
    rcases h with h | h
    · simp only [getItem, pyGet, pyIndex, if_neg (by omega : ¬ (0:Int) ≤ i),
        if_neg (by omega : ¬ (0:Int) ≤ i + ((s o).inputs.length : Nat)), Option.none_bind]
    · simp only [getItem, pyGet, pyIndex, if_pos (by omega : (0:Int) ≤ i),
        if_neg (by omega : ¬ i < (((s o).inputs.length : Nat) : Int)), Option.none_bind]

/-- C10: a negative int index `j` with `-n ≤ j ≤ -1` is normalized by
adding the length before any edge bookkeeping, so `set` and `delete`
behave exactly as at the non-negative index `j + n`, and every
reverse-edge pair they record or remove carries the non-negative
normalized index. -/
theorem c10_negative_index_normalization (s : State) (o : NodeId) (j : Int)
    (v : NodeId) (h0 : -(((s o).inputs.length : Nat) : Int) ≤ j) (h1 : j ≤ -1) :
    setItem s o j v = setItem s o (j + ((s o).inputs.length : Nat)) v ∧
    delItem s o j = delItem s o (j + ((s o).inputs.length : Nat)) ∧
    0 ≤ j + (((s o).inputs.length : Nat) : Int) := by
  have hnorm : pyNorm (s o).inputs.length j =
      pyNorm (s o).inputs.length (j + ((s o).inputs.length : Nat)) := by
    simp only [pyNorm]
    rw [if_pos (by omega : j < 0), if_neg (by omega : ¬ j + (((s o).inputs.length : Nat) : Int) < 0)]
  refine ⟨?_, ?_, by omega⟩
  · simp only [setItem, hnorm]
  · simp only [delItem, hnorm]

/-- C1 (amended): for all nodes `N`, `M` and index `i`,
`N.inputs[i] == M` iff `(N, i) ∈ M.uses`, after every finite sequence
of construction, insert, delete, set, clear and replace operations
from freshly constructed nodes — provided every `insert` receives an
index within `[-n, n]` for the owner's current length `n` (Python
silently clamps the list position of an out-of-range insert but
records the unclamped reverse-edge index, breaking the invariant). -/
theorem c1_bidirectionality (ops : List Op) (h : goodSeq emptyState ops = true) :
    Inv (runOps emptyState ops) :=
  runOps_inv ops emptyState inv_emptyState h

/-- C1 counterexample to the claim as stated: `insert` at index 2 into
a freshly constructed node's empty input list records the reverse edge
`(0, 2)` while the element lands at position 0, so the
bidirectionality invariant fails after a sequence of permitted
operations. -/
theorem c1_counterexample :
    ¬ Inv (runOps emptyState
      [.mk 0 [] .noneVal none, .mk 1 [] .noneVal none, .ins 0 2 1]) := by
  intro h
  have hmem : ((0 : NodeId), (2 : Int)) ∈
      ((runOps emptyState [.mk 0 [] .noneVal none, .mk 1 [] .noneVal none,
        .ins 0 2 1]) 1).uses := by decide
  have := (h 0 1 2).mp hmem
  revert this
  decide

/-- C3: on a consistent state and in-range index, `insert(i, v)`
re-keys the reverse edge of each pre-existing element at position
`≥ i` up by exactly one, leaves positions `< i` untouched, gives `v`
the fresh reverse edge at `i`, and never touches another owner's
edges; `delete(i)` removes the edge of the deleted element and re-keys
positions `> i` down by exactly one.  Success of every `set.remove`
along the way (no `KeyError`) certifies the remove-then-add order
never hit a transient gap, and exactness of the final use-sets (with
duplicates allowed in the list) certifies no transient duplicate was
collapsed by the set semantics. -/
theorem c3_renumbering :
    (∀ (s : State) (o : NodeId) (i : Int) (v : NodeId), Inv s →
      -(((s o).inputs.length : Nat) : Int) ≤ i →
      i ≤ (((s o).inputs.length : Nat) : Int) →
      ((insertItem s o i v).2 = none ∧
       (∀ q m t, q ≠ o →
         ((q, t) ∈ ((insertItem s o i v).1 m).uses ↔ (q, t) ∈ (s m).uses)) ∧
       (∀ m t, 0 ≤ t → t < pyNorm (s o).inputs.length i →
         ((o, t) ∈ ((insertItem s o i v).1 m).uses ↔ (o, t) ∈ (s m).uses)) ∧
       (∀ m t, pyNorm (s o).inputs.length i ≤ t →
         ((o, t + 1) ∈ ((insertItem s o i v).1 m).uses ↔ (o, t) ∈ (s m).uses)) ∧
       (∀ m, ((o, pyNorm (s o).inputs.length i) ∈ ((insertItem s o i v).1 m).uses ↔
         m = v)))) ∧
    (∀ (s : State) (o : NodeId) (i : Int), Inv s →
      -(((s o).inputs.length : Nat) : Int) ≤ i →
      i < (((s o).inputs.length : Nat) : Int) →
      ((delItem s o i).2 = none ∧
       (∀ q m t, q ≠ o →
         ((q, t) ∈ ((delItem s o i).1 m).uses ↔ (q, t) ∈ (s m).uses)) ∧
       (∀ m t, 0 ≤ t → t < pyNorm (s o).inputs.length i →
         ((o, t) ∈ ((delItem s o i).1 m).uses ↔ (o, t) ∈ (s m).uses)) ∧
       (∀ m t, pyNorm (s o).inputs.length i ≤ t →
         ((o, t) ∈ ((delItem s o i).1 m).uses ↔ (o, t + 1) ∈ (s m).uses)))) := by
  constructor
  · intro s o i v hInv h0 h1
    obtain ⟨he, hin, hinv2⟩ := insertItem_ok v hInv h0 h1
    have hjb : 0 ≤ pyNorm (s o).inputs.length i ∧
        pyNorm (s o).inputs.length i ≤ ((s o).inputs.length : Int) := by
      unfold pyNorm
      split <;> omega
    have hjle : (pyNorm (s o).inputs.length i).toNat ≤ (s o).inputs.length := by omega
    refine ⟨he, ?_, ?_, ?_, ?_⟩
    · intro q m t hq
      rw [hinv2 q m t, hin q, if_neg hq, ← hInv q m t]
    · intro m t ht0 htj
      rw [hinv2 o m t, hin o, if_pos rfl]
      have hsh : lGet ((s o).inputs.take (pyNorm (s o).inputs.length i).toNat ++
          v :: (s o).inputs.drop (pyNorm (s o).inputs.length i).toNat) t =
          lGet ((s o).inputs) t := by
        simp only [lGet, if_pos ht0]
        exact getElem?_insertShape_lt v hjle (by omega)
      rw [hsh, ← hInv o m t]
    · intro m t htj
      have ht0 : 0 ≤ t := by omega
      rw [hinv2 o m (t + 1), hin o, if_pos rfl]
      have hsh : lGet ((s o).inputs.take (pyNorm (s o).inputs.length i).toNat ++
          v :: (s o).inputs.drop (pyNorm (s o).inputs.length i).toNat) (t + 1) =
          lGet ((s o).inputs) t := by
        simp only [lGet, if_pos (by omega : (0:Int) ≤ t + 1), if_pos ht0]
        rw [getElem?_insertShape_gt v hjle (by omega)]
        congr 1
        omega
      rw [hsh, ← hInv o m t]
    · intro m
      rw [hinv2 o m _, hin o, if_pos rfl]
      have hsh : lGet ((s o).inputs.take (pyNorm (s o).inputs.length i).toNat ++
          v :: (s o).inputs.drop (pyNorm (s o).inputs.length i).toNat)
          (pyNorm (s o).inputs.length i) = some v := by
        simp only [lGet, if_pos hjb.1]
        exact getElem?_insertShape_self v hjle
      rw [hsh]
      constructor
      · intro h
        exact (Option.some.inj h).symm
      · intro h
        rw [h]
  · intro s o i hInv h0 h1
    obtain ⟨he, hin, hinv2⟩ := delItem_ok hInv h0 h1
    obtain ⟨hj0, hj1⟩ := pyNorm_bounds h0 h1
    have hjlt : (pyNorm (s o).inputs.length i).toNat < (s o).inputs.length := by omega
    refine ⟨he, ?_, ?_, ?_⟩
    · intro q m t hq
      rw [hinv2 q m t, hin q, if_neg hq, ← hInv q m t]
    · intro m t ht0 htj
      rw [hinv2 o m t, hin o, if_pos rfl]
      have hsh : lGet ((s o).inputs.eraseIdx (pyNorm (s o).inputs.length i).toNat) t =
          lGet ((s o).inputs) t := by
        simp only [lGet, if_pos ht0]
        exact List.getElem?_eraseIdx_of_lt _ _ _ (by omega)
      rw [hsh, ← hInv o m t]
    · intro m t htj
      have ht0 : 0 ≤ t := by omega
      rw [hinv2 o m t, hin o, if_pos rfl]
      have hsh : lGet ((s o).inputs.eraseIdx (pyNorm (s o).inputs.length i).toNat) t =
          lGet ((s o).inputs) (t + 1) := by
        simp only [lGet, if_pos ht0, if_pos (by omega : (0:Int) ≤ t + 1)]
        rw [List.getElem?_eraseIdx_of_ge _ _ _ (by omega)]
        congr 1
        omega
      rw [hsh, ← hInv o m (t + 1)]

/-- C9: on a consistent state, `clear` succeeds; on an empty input
sequence it is exactly a no-op; and it is idempotent — after one call
the owner's list is empty and every reverse edge from the owner is
gone, and a second call returns the state unchanged. -/
theorem c9_clear_idempotent {s : State} (o : NodeId) (hInv : Inv s) :
    (clearNode s o).2 = none ∧
    ((s o).inputs = [] → clearNode s o = (s, none)) ∧
    (((clearNode s o).1 o).inputs = []) ∧
    (∀ m t, ((o, t) ∉ (((clearNode s o).1 m).uses))) ∧
    clearNode ((clearNode s o).1) o = ((clearNode s o).1, none) := by
  obtain ⟨h1, h2, h3, h4⟩ := @clearNode_spec s o hInv
  have hoinp : ((clearNode s o).1 o).inputs = [] := by
    rw [h2 o, if_pos rfl]
  refine ⟨h1, fun he => clearNode_empty he, hoinp, ?_, clearNode_empty hoinp⟩
  intro m t hmem
  exact absurd rfl ((h4 o m t).mp hmem).2

/-- C5 (amended): for every node `a` with an empty use-set and every
node `b` distinct from `a`, `a.replace(b)` succeeds (the use-set loop
is vacuous) and still moves `a`'s inputs onto `b`: afterwards `b`'s
input list is `a`'s former input list with a reverse edge pointing at
`b` for every position, and `a` has no inputs. -/
theorem c5_replace_zero_uses {s : State} {a b : NodeId} (hInv : Inv s)
    (hab : a ≠ b) (hu : (s a).uses = ∅) :
    (replaceNode s a b).2 = none ∧
    ((replaceNode s a b).1 b).inputs = (s a).inputs ∧
    ((replaceNode s a b).1 a).inputs = [] ∧
    (∀ kk : Nat, ∀ m, (s a).inputs[kk]? = some m →
      (b, (kk : Int)) ∈ (((replaceNode s a b).1) m).uses) ∧
    Inv (replaceNode s a b).1 := by
  obtain ⟨h1, h2, h3, h4, h5⟩ := replace_no_uses hInv hab hu
  refine ⟨h1, h2, h3, ?_, h5⟩
  intro kk m hk
  refine (h5 b m (kk : Int)).mpr ?_
  rw [h2, lGet_coe]
  exact hk

/-- State for the C5 counterexample: node 0 has input list `[1]` and
an empty use-set. -/
def cexState5 : State :=
  runOps emptyState [.mk 1 [] (.lit 1) none, .mk 0 [1] .noneVal (some 0)]

/-- C5 counterexample to the claim as stated (which quantifies over
every node `B`, including `B = A`): `replace(self, self)` on a
zero-use node first clears the node through the `inputs` setter and
then extends from the now-empty live list, so the inputs are lost
rather than moved. -/
theorem c5_counterexample :
    (cexState5 0).uses = ∅ ∧
    (cexState5 0).inputs = [1] ∧
    (replaceNode cexState5 0 0).2 = none ∧
    ((replaceNode cexState5 0 0).1 0).inputs = [] ∧
    ((replaceNode cexState5 0 0).1 0).inputs ≠ (cexState5 0).inputs := by
  decide

/-- State for the C2 failing input: node 0 (the replaced node) has
input list `[4]` and is used by nodes 2 and 3, each at index 0; node 1
is the replacement. -/
def bugState2 : State :=
  runOps emptyState
    [.mk 4 [] (.lit 4) none, .mk 0 [4] .noneVal (some 0),
     .mk 1 [] .noneVal (some 0), .mk 2 [0] .noneVal (some 0),
     .mk 3 [0] .noneVal (some 0)]

/-- C2 failing input, evaluated: `replace` iterates `self.uses` while
`__setitem__` removes the processed pair from it, so CPython raises
`RuntimeError` ("Set changed size during iteration") after exactly one
user is rewired; with two users the caller observes a partially
rewired state.  Both possible iteration orders are evaluated: in each,
one user ends at the replacement and the other still points at the
replaced node when the exception propagates. -/
theorem c2_replace_partial_state :
    ((2 : NodeId), (0 : Int)) ∈ (bugState2 0).uses ∧
    ((3 : NodeId), (0 : Int)) ∈ (bugState2 0).uses ∧
    (bugState2 2).inputs = [0] ∧
    (bugState2 3).inputs = [0] ∧
    ((replacePhases bugState2 0 1).1 0).uses =
      insert ((2 : NodeId), (0 : Int)) {((3 : NodeId), (0 : Int))} ∧
    (replaceNode bugState2 0 1).2 = some .runtimeError ∧
    ((replaceNode bugState2 0 1).1 2).inputs = [1] ∧
    ((replaceNode bugState2 0 1).1 3).inputs = [0] ∧
    (replFinish (replacePhases bugState2 0 1).1 1 (some (3, 0))).2 =
      some .runtimeError ∧
    ((replFinish (replacePhases bugState2 0 1).1 1 (some (3, 0))).1 3).inputs = [1] ∧
    ((replFinish (replacePhases bugState2 0 1).1 1 (some (3, 0))).1 2).inputs = [0] := by
  decide

/-! # Witness states and witnesses -/

/-- A small worked state: node 0 applies node 1 twice (duplicate
inputs), node 2 is unused. -/
def exOps : List Op :=
  [.mk 1 [] (.lit 1) none, .mk 2 [] (.lit 2) none, .mk 0 [1, 1] .noneVal (some 0)]

/-- The state built by `exOps`. -/
def exState : State := runOps emptyState exOps

/-- Witness for C1 at a concrete operation sequence exercising
construction, delete, insert, set, replace and clear. -/
theorem c1_witness :
    goodSeq emptyState
      [.mk 1 [] .parameterTag (some 0), .mk 2 [] .parameterTag (some 0),
       .mk 3 [] .parameterTag (some 0), .mk 4 [1, 2, 3] .noneVal (some 0),
       .del 4 1, .ins 4 2 2, .set 4 0 3, .repl 1 2, .clr 4] = true ∧
    Inv (runOps emptyState
      [.mk 1 [] .parameterTag (some 0), .mk 2 [] .parameterTag (some 0),
       .mk 3 [] .parameterTag (some 0), .mk 4 [1, 2, 3] .noneVal (some 0),
       .del 4 1, .ins 4 2 2, .set 4 0 3, .repl 1 2, .clr 4]) :=
  ⟨by decide, c1_bidirectionality _ (by decide)⟩

/-- Witness for C3: insert at index 0 in front of the duplicate pair
and delete at index 0, on the concrete state `exState`. -/
theorem c3_witness :
    (insertItem exState 0 0 2).2 = none ∧
    (((0 : NodeId), (2 : Int)) ∈ ((insertItem exState 0 0 2).1 1).uses ↔
      ((0 : NodeId), (1 : Int)) ∈ (exState 1).uses) ∧
    (∀ m, (((0 : NodeId), pyNorm (exState 0).inputs.length 0) ∈
      ((insertItem exState 0 0 2).1 m).uses ↔ m = 2)) ∧
    (delItem exState 0 0).2 = none ∧
    (((0 : NodeId), (0 : Int)) ∈ ((delItem exState 0 0).1 1).uses ↔
      ((0 : NodeId), (1 : Int)) ∈ (exState 1).uses) := by
  have hInv : Inv exState := invAfterOps exOps (by decide)
  have hins := c3_renumbering.1 exState 0 0 2 hInv (by decide) (by decide)
  have hdel := c3_renumbering.2 exState 0 0 hInv (by decide) (by decide)
  exact ⟨hins.1, hins.2.2.2.1 1 1 (by decide), hins.2.2.2.2, hdel.1,
    hdel.2.2.2 1 0 (by decide)⟩

/-- Operations building the C5 witness state: node 0 with inputs
`[1]` and no uses, plus the fresh node 2. -/
def exOps5 : List Op :=
  [.mk 1 [] (.lit 1) none, .mk 0 [1] .noneVal (some 0), .mk 2 [] .noneVal (some 0)]

/-- The state built by `exOps5`. -/
def exState5 : State := runOps emptyState exOps5

/-- Witness for C5 at concrete nodes: node 0 (inputs `[1]`, no uses)
replaced by the distinct fresh node 2. -/
theorem c5_witness :
    (0 : NodeId) ≠ 2 ∧
    (exState5 0).uses = ∅ ∧
    (replaceNode exState5 0 2).2 = none ∧
    ((replaceNode exState5 0 2).1 2).inputs = (exState5 0).inputs ∧
    ((replaceNode exState5 0 2).1 0).inputs = [] := by
  have hInv : Inv exState5 := invAfterOps exOps5 (by decide)
  have h := @c5_replace_zero_uses exState5 0 2 hInv (by decide) (by decide)
  exact ⟨by decide, by decide, h.1, h.2.1, h.2.2.1⟩

/-- Witness for C8 on the concrete state `exState` (length 2): get at
1, get at -1, get at 5. -/
theorem c8_witness :
    (∃ w, (exState 0).inputs[(1 : Int).toNat]? = some w ∧
      getItem exState 0 1 = .ok w) ∧
    (∃ w, (exState 0).inputs[((-1 : Int) + ((exState 0).inputs.length : Nat)).toNat]? =
      some w ∧ getItem exState 0 (-1) = .ok w) ∧
    getItem exState 0 5 = .error .indexError :=
  ⟨(c8_getitem exState 0).1 1 (by decide) (by decide),
   (c8_getitem exState 0).2.1 (-1) (by decide) (by decide),
   (c8_getitem exState 0).2.2 5 (Or.inr (by decide))⟩

/-- Witness for C9 on the concrete state `exState`. -/
theorem c9_witness :
    (clearNode exState 0).2 = none ∧
    ((clearNode exState 0).1 0).inputs = [] ∧
    ((0 : NodeId), (0 : Int)) ∉ (((clearNode exState 0).1 1).uses) ∧
    clearNode ((clearNode exState 0).1) 0 = ((clearNode exState 0).1, none) := by
  have h := c9_clear_idempotent 0 (invAfterOps exOps (by decide))
  exact ⟨h.1, h.2.2.1, h.2.2.2.1 1 0, h.2.2.2.2⟩

/-- Witness for C10 on the concrete state `exState` at index -1. -/
theorem c10_witness :
    setItem exState 0 (-1) 2 =
      setItem exState 0 ((-1) + ((exState 0).inputs.length : Nat)) 2 ∧
    delItem exState 0 (-1) =
      delItem exState 0 ((-1) + ((exState 0).inputs.length : Nat)) ∧
    (0 : Int) ≤ (-1) + (((exState 0).inputs.length : Nat) : Int) :=
  c10_negative_index_normalization exState 0 (-1) 2 (by decide) (by decide)

/-- State for the C7 counterexample: node 1 uses node 0 at indices 0
and 1. -/
def cexState7 : State :=
  runOps emptyState [.mk 0 [] (.lit 0) none, .mk 1 [0, 0] .noneVal (some 0)]

/-- C7 counterexample to the claim as stated: `outgoing` is the
generator `(node for node, index in self.uses)`, one yield per pair,
so a node that references the target at two indices is yielded twice,
not exactly once. -/
theorem c7_counterexample :
    ((1 : NodeId), (0 : Int)) ∈ (cexState7 0).uses ∧
    ((1 : NodeId), (1 : Int)) ∈ (cexState7 0).uses ∧
    Multiset.count 1 (outgoing cexState7 0) = 2 := by
  decide

end Myia
